import Mathlib

/-!
# TecnicoFS: the i-node table of `exercicio2/fs/state.c` and the locks of
`exercicio1/fs/sync.c`

A shallow embedding of the i-node table operations (`inode_table_init`,
`inode_create`, `inode_delete`, `inode_get`, `dir_reset_entry`,
`dir_add_entry`) as state-passing functions on a list of i-nodes, of
`inode_print_tree` as the sequence of what it writes, of `inode_lock` and of
the functions of `sync.c` as the sequences of the pthread calls they make.

Conventions of the embedding:

* C `int` values are `Int`; no operation of the table does arithmetic that
  could overflow.
* A function returns `none` (`Run.undefined` for `inode_print_tree`) when the
  C code has undefined behaviour on the input: an access to `inode_table`
  outside its bounds, a dereference of a pointer that does not point to a
  live block, a second `free`, or a `strcpy` of a name that does not fit the
  name array of a directory entry.
* The recursion of `inode_print_tree` is bounded by a number of nested calls,
  and `Run.out_of_fuel` says that the bound was reached.
* The pthread primitives, `malloc` and `snprintf` are taken to succeed (the
  code exits the process when a pthread call fails), and `insert_delay` has
  no effect on the state.
* The constants of `state.h` and `tecnicofs-api-constants.h` are not among
  the sources; they are the fields of `Consts`.
* The functions of `sync.c` are modelled for calls made after `initLock`,
  when the global `gStrat` points to a strategy name.
-/

namespace TecnicoFS

/-- The constants used by `state.c` whose definitions live in headers that
are not among the sources. -/
structure Consts where
  INODE_TABLE_SIZE : Nat
  MAX_DIR_ENTRIES : Nat
  MAX_FILE_NAME : Nat
  FREE_INODE : Int
  SUCCESS : Int
  FAIL : Int
deriving DecidableEq, Repr

/-- Modelled from the spec: the enumeration `type` of `state.h` (absent from
the sources), with the three tags the code uses. -/
inductive type where
  | T_FILE
  | T_DIRECTORY
  | T_NONE
deriving DecidableEq, Repr

/-- Modelled from the spec: the record `DirEntry` of `state.h` (absent from
the sources), a pair of a name, a bounded string, and a child inumber. The
name is the content of the C string held in the array `name` of the entry,
an array of `MAX_FILE_NAME` bytes; `name[0] = 0` makes it empty. -/
structure DirEntry where
  name : List Char
  inumber : Int
deriving DecidableEq, Repr

/-- Modelled from the spec: the `union Data` of `state.h` (absent from the
sources). Both members are pointers sharing storage: the pointer is `NULL`,
or points to a live block of directory entries obtained from `malloc`, or
is dangling after `free`. -/
inductive Data where
  | null
  | block (dirEntries : List DirEntry)
  | freed
deriving DecidableEq, Repr

/-- Modelled from the spec: the record `inode_t` of `state.h` (absent from
the sources), without its lock: kind tag and content. -/
structure inode_t where
  nodeType : type
  data : Data
deriving DecidableEq, Repr

/-- The global array `inode_table`. -/
abbrev Table := List inode_t

/-- The read `inode_table[i]` for a C `int` index: defined inside the bounds
of the array only. -/
def inode_at (c : Consts) (t : Table) (i : Int) : Option inode_t :=
  if 0 ≤ i ∧ i < c.INODE_TABLE_SIZE then t[i.toNat]? else none

/-- Kind of slot `i`, when the slot exists. -/
def kind_at (t : Table) (i : Nat) : Option type :=
  (t[i]?).map inode_t.nodeType

/-- The guard
`(i < lo) || (i > INODE_TABLE_SIZE) || (inode_table[i].nodeType == T_NONE)`
that opens `inode_delete`, `inode_get`, `dir_reset_entry` and
`dir_add_entry`, with its left-to-right short-circuit evaluation. `lo` is
`0`, or `FREE_INODE` in the check of `sub_inumber` by `dir_reset_entry`. -/
def invalid_inumber (c : Consts) (t : Table) (lo : Int) (i : Int) : Option Bool :=
  if i < lo ∨ i > c.INODE_TABLE_SIZE then some true
  else
    match inode_at c t i with
    | none => none
    | some n => some (decide (n.nodeType = type.T_NONE))

/-- Body of `inode_table_init`: every slot is `T_NONE` with a null pointer. -/
def inode_table_init (c : Consts) : Table :=
  List.replicate c.INODE_TABLE_SIZE ⟨type.T_NONE, Data.null⟩

/-- The content `inode_create` gives to the slot it takes. For a directory a
block of `MAX_DIR_ENTRIES` entries is allocated and the loop sets the inumber
of each to `FREE_INODE`; the names stay what `malloc` returned, `names i`
for entry `i`. Otherwise the pointer is set to `NULL`. -/
def new_inode (c : Consts) (names : Nat → List Char) (nType : type) : inode_t :=
  if nType = type.T_DIRECTORY then
    ⟨nType, Data.block ((List.range c.MAX_DIR_ENTRIES).map fun i => ⟨names i, c.FREE_INODE⟩)⟩
  else
    ⟨nType, Data.null⟩

/-- The loop `for (inumber = 0; inumber < INODE_TABLE_SIZE; inumber++)` of
`inode_create`, with `k` iterations left from index `inumber`. -/
def inode_create_loop (c : Consts) (names : Nat → List Char) (t : Table) (nType : type) :
    Nat → Nat → Option (Int × Table)
  | 0, _ => some (c.FAIL, t)
  | k + 1, inumber =>
    match t[inumber]? with
    | none => none
    | some n =>
      if n.nodeType = type.T_NONE then
        some ((inumber : Int), t.set inumber (new_inode c names nType))
      else
        inode_create_loop c names t nType k (inumber + 1)

/-- The function `inode_create`: returns the inumber or `FAIL`, and the
table after the call. -/
def inode_create (c : Consts) (names : Nat → List Char) (t : Table) (nType : type) :
    Option (Int × Table) :=
  inode_create_loop c names t nType c.INODE_TABLE_SIZE 0

/-- The function `inode_delete`. -/
def inode_delete (c : Consts) (t : Table) (inumber : Int) : Option (Int × Table) :=
  match invalid_inumber c t 0 inumber with
  | none => none
  | some true => some (c.FAIL, t)
  | some false =>
    match inode_at c t inumber with
    | none => none
    | some n =>
      match n.data with
      | Data.null => some (c.SUCCESS, t.set inumber.toNat ⟨type.T_NONE, Data.null⟩)
      | Data.block _ => some (c.SUCCESS, t.set inumber.toNat ⟨type.T_NONE, Data.freed⟩)
      | Data.freed => none

/-- The function `inode_get`. `wantType` and `wantData` say whether the
pointers `nType` and `data` are non-null; the two outputs are `none` when
nothing is written through the pointer. -/
def inode_get (c : Consts) (t : Table) (inumber : Int) (wantType wantData : Bool) :
    Option (Int × Option type × Option Data × Table) :=
  match invalid_inumber c t 0 inumber with
  | none => none
  | some true => some (c.FAIL, none, none, t)
  | some false =>
    match inode_at c t inumber with
    | none => none
    | some n =>
      some (c.SUCCESS, (if wantType then some n.nodeType else none),
        (if wantData then some n.data else none), t)

/-- The read `data.dirEntries[i]`: defined when the pointer points to a live
block and `i` is inside the block. -/
def entry_at (d : Data) (i : Nat) : Option (List DirEntry × DirEntry) :=
  match d with
  | Data.block es =>
    match es[i]? with
    | none => none
    | some e => some (es, e)
  | _ => none

/-- The loop of `dir_reset_entry` over the entries of the directory whose
pointer is `d`, with `k` iterations left from index `i`: `some (some es)` is
the block after the first match was reset, `some none` the end of the loop
without a match. -/
def dir_reset_loop (c : Consts) (d : Data) (sub_inumber : Int) :
    Nat → Nat → Option (Option (List DirEntry))
  | 0, _ => some none
  | k + 1, i =>
    match entry_at d i with
    | none => none
    | some (es, e) =>
      if e.inumber = sub_inumber then
        some (some (es.set i ⟨[], c.FREE_INODE⟩))
      else
        dir_reset_loop c d sub_inumber k (i + 1)

/-- The function `dir_reset_entry`. -/
def dir_reset_entry (c : Consts) (t : Table) (inumber sub_inumber : Int) :
    Option (Int × Table) :=
  match invalid_inumber c t 0 inumber with
  | none => none
  | some true => some (c.FAIL, t)
  | some false =>
    match inode_at c t inumber with
    | none => none
    | some n =>
      if n.nodeType ≠ type.T_DIRECTORY then some (c.FAIL, t)
      else
        match invalid_inumber c t c.FREE_INODE sub_inumber with
        | none => none
        | some true => some (c.FAIL, t)
        | some false =>
          match dir_reset_loop c n.data sub_inumber c.MAX_DIR_ENTRIES 0 with
          | none => none
          | some none => some (c.FAIL, t)
          | some (some es') =>
            some (c.SUCCESS, t.set inumber.toNat ⟨n.nodeType, Data.block es'⟩)

/-- The call `strcpy(entry.name, sub_name)` into the array of
`MAX_FILE_NAME` bytes of an entry: the name is copied when it fits the array
with its terminator, and the call writes past the array, which is undefined
behaviour, when the name has `MAX_FILE_NAME` characters or more. -/
def strcpy_name (c : Consts) (sub_name : List Char) : Option (List Char) :=
  if sub_name.length < c.MAX_FILE_NAME then some sub_name else none

/-- The loop of `dir_add_entry` over the entries of the directory whose
pointer is `d`, with `k` iterations left from index `i`. -/
def dir_add_loop (c : Consts) (d : Data) (sub_inumber : Int) (sub_name : List Char) :
    Nat → Nat → Option (Option (List DirEntry))
  | 0, _ => some none
  | k + 1, i =>
    match entry_at d i with
    | none => none
    | some (es, e) =>
      if e.inumber = c.FREE_INODE then
        match strcpy_name c sub_name with
        | none => none
        | some nm => some (some (es.set i ⟨nm, sub_inumber⟩))
      else
        dir_add_loop c d sub_inumber sub_name k (i + 1)

/-- The function `dir_add_entry`. -/
def dir_add_entry (c : Consts) (t : Table) (inumber sub_inumber : Int) (sub_name : List Char) :
    Option (Int × Table) :=
  match invalid_inumber c t 0 inumber with
  | none => none
  | some true => some (c.FAIL, t)
  | some false =>
    match inode_at c t inumber with
    | none => none
    | some n =>
      if n.nodeType ≠ type.T_DIRECTORY then some (c.FAIL, t)
      else
        match invalid_inumber c t 0 sub_inumber with
        | none => none
        | some true => some (c.FAIL, t)
        | some false =>
          if sub_name.length = 0 then some (c.FAIL, t)
          else
            match dir_add_loop c n.data sub_inumber sub_name c.MAX_DIR_ENTRIES 0 with
            | none => none
            | some none => some (c.FAIL, t)
            | some (some es') =>
              some (c.SUCCESS, t.set inumber.toNat ⟨n.nodeType, Data.block es'⟩)

/-- The common shape of the loops of `dir_reset_entry` and `dir_add_entry`:
the entries are read in increasing order and the first whose inumber is
`target` is overwritten by `entry`. -/
def entries_scan (es : List DirEntry) (target : Int) (entry : DirEntry) :
    Nat → Nat → Option (Option (List DirEntry))
  | 0, _ => some none
  | k + 1, i =>
    match es[i]? with
    | none => none
    | some e =>
      if e.inumber = target then some (some (es.set i entry))
      else entries_scan es target entry k (i + 1)

/-- The entries of the directory at inumber `i`: the content of the block
its slot points to (the empty list when the slot has no live block). -/
def entries_of (c : Consts) (t : Table) (i : Int) : List DirEntry :=
  match inode_at c t i with
  | none => []
  | some n =>
    match n.data with
    | Data.block es => es
    | _ => []

/-- The non-free entries of a block, in the order of the block. -/
def live_entries (c : Consts) (es : List DirEntry) : List DirEntry :=
  es.filter fun e => decide (e.inumber ≠ c.FREE_INODE)

/-- Consecutive calls of `inode_create`, one for each request (the kind
asked for and the names found in the block `malloc` returns), each on the
table the previous call left: the list of the values returned and the final
table. -/
def inode_create_seq (c : Consts) : Table → List (type × (Nat → List Char)) →
    Option (List Int × Table)
  | t, [] => some ([], t)
  | t, q :: qs =>
    match inode_create c q.2 t q.1 with
    | none => none
    | some (r, t1) =>
      match inode_create_seq c t1 qs with
      | none => none
      | some (rs, t2) => some (r :: rs, t2)

/-- The tables in which exactly the slots below `m` are taken, and no taken
slot holds a dangling pointer. -/
def filled_upto (c : Consts) (m : Nat) (t : Table) : Prop :=
  t.length = c.INODE_TABLE_SIZE ∧
  (∀ j, j < m → kind_at t j ≠ some type.T_NONE) ∧
  (∀ j, m ≤ j → j < c.INODE_TABLE_SIZE → kind_at t j = some type.T_NONE) ∧
  ∀ n ∈ t, n.data ≠ Data.freed

/-- A small instance of the constants, for evaluating the definitions. -/
def c0 : Consts := ⟨3, 2, 8, -1, 0, -1⟩

/-! ## `inode_print_tree` -/

/-- What `inode_print_tree` writes: a line on the file `fp`, or the
truncation warning on `stderr`. -/
inductive PrintEvent where
  | line (s : List Char)
  | truncation
deriving DecidableEq, Repr

/-- The result of running a recursive function of the code for a bounded
number of nested calls: it returned, or it ran into undefined behaviour, or
the bound on the depth of the calls was reached. -/
inductive Run (α : Type) where
  | done (a : α)
  | undefined
  | out_of_fuel
deriving DecidableEq, Repr

/-- The call `snprintf(path, sizeof(path), "%s/%s", name, ename)` with
`char path[MAX_FILE_NAME]`: the value returned is the length of the whole
composed string, and `path` receives at most `MAX_FILE_NAME - 1` of its
characters (the last byte of the buffer is the terminator). -/
def snprintf_path (c : Consts) (name ename : List Char) : Nat × List Char :=
  ((name ++ '/' :: ename).length, (name ++ '/' :: ename).take (c.MAX_FILE_NAME - 1))

/-- The loop of `inode_print_tree` over the entries of a directory whose
pointer is `d`, with `k` iterations left from index `i`; `call` is the
recursive call of `inode_print_tree`. The warning is written when the value
returned by `snprintf` is greater than `sizeof(path)`. -/
def print_entries (c : Consts) (call : Int → List Char → Run (List PrintEvent)) (d : Data)
    (name : List Char) : Nat → Nat → Run (List PrintEvent)
  | 0, _ => Run.done []
  | k + 1, i =>
    match entry_at d i with
    | none => Run.undefined
    | some (_, e) =>
      if e.inumber ≠ c.FREE_INODE then
        match call e.inumber (snprintf_path c name e.name).2 with
        | Run.done out1 =>
          match print_entries c call d name k (i + 1) with
          | Run.done out2 =>
            Run.done ((if (snprintf_path c name e.name).1 > c.MAX_FILE_NAME
              then [PrintEvent.truncation] else []) ++ out1 ++ out2)
          | r => r
        | r => r
      else
        print_entries c call d name k (i + 1)

/-- The function `inode_print_tree`, as the sequence of what it writes.
`fuel` bounds the depth of the recursive calls. The read of
`inode_table[inumber]` is not guarded by the code. -/
def inode_print_tree_events (c : Consts) (t : Table) :
    Nat → Int → List Char → Run (List PrintEvent)
  | 0, _, _ => Run.out_of_fuel
  | fuel + 1, inumber, name =>
    match inode_at c t inumber with
    | none => Run.undefined
    | some n =>
      if n.nodeType = type.T_FILE then Run.done [PrintEvent.line name]
      else if n.nodeType = type.T_DIRECTORY then
        match print_entries c (inode_print_tree_events c t fuel) n.data name
            c.MAX_DIR_ENTRIES 0 with
        | Run.done out => Run.done (PrintEvent.line name :: out)
        | r => r
      else Run.done []

/-- The function `inode_print_tree` with the table after the call: the
function has no assignment to `inode_table`. -/
def inode_print_tree (c : Consts) (t : Table) (fuel : Nat) (inumber : Int)
    (name : List Char) : Run (List PrintEvent × Table) :=
  match inode_print_tree_events c t fuel inumber name with
  | Run.done out => Run.done (out, t)
  | Run.undefined => Run.undefined
  | Run.out_of_fuel => Run.out_of_fuel

/-- The tables of the claim on `inode_print_tree`: below `inumber` the
directory entries form a tree of height at most `h` whose nodes are all
taken (file or directory), every directory points to a block of at least
`MAX_DIR_ENTRIES` entries, and every label composed on the way, the label of
the directory followed by `/` and the name of the entry, fits with its
terminator in the buffer of `MAX_FILE_NAME` bytes. -/
def tree_fits (c : Consts) (t : Table) : Nat → Int → List Char → Bool
  | 0, _, _ => false
  | h + 1, inumber, label =>
    match inode_at c t inumber with
    | none => false
    | some n =>
      match n.nodeType with
      | type.T_FILE => true
      | type.T_NONE => false
      | type.T_DIRECTORY =>
        match n.data with
        | Data.block es =>
          decide (c.MAX_DIR_ENTRIES ≤ es.length) &&
          (live_entries c (es.take c.MAX_DIR_ENTRIES)).all fun e =>
            decide ((label ++ '/' :: e.name).length < c.MAX_FILE_NAME) &&
            tree_fits c t h e.inumber (label ++ '/' :: e.name)
        | _ => false

/-- The pre-order listing of the spec, for a tree of height at most `h`: a
file gives the single line `label`; a directory gives the line `label`
followed, for each non-free entry in increasing slot order, by the listing
of the child of the entry with the label `label ++ "/" ++ name`. -/
def listing (c : Consts) (t : Table) : Nat → Int → List Char → List (List Char)
  | 0, _, _ => []
  | h + 1, inumber, label =>
    match inode_at c t inumber with
    | none => []
    | some n =>
      match n.nodeType with
      | type.T_FILE => [label]
      | type.T_NONE => []
      | type.T_DIRECTORY =>
        label :: (live_entries c ((entries_of c t inumber).take c.MAX_DIR_ENTRIES)).flatMap
          fun e => listing c t h e.inumber (label ++ '/' :: e.name)

/-- A table of three slots for `c0`: the root directory in slot 0 has the
single entry `d`, the directory in slot 1; that directory has the single
entry `f`, the file in slot 2. -/
def tree_d_f : Table :=
  [⟨type.T_DIRECTORY, Data.block [⟨[], -1⟩, ⟨['d'], 1⟩]⟩,
   ⟨type.T_DIRECTORY, Data.block [⟨['f'], 2⟩, ⟨[], -1⟩]⟩,
   ⟨type.T_FILE, Data.null⟩]

/-- A table of three slots for `c0`: the directory in slot 0 has the single
entry `xyz`, the file in slot 1. -/
def tree_xyz : Table :=
  [⟨type.T_DIRECTORY, Data.block [⟨['x', 'y', 'z'], 1⟩, ⟨[], -1⟩]⟩,
   ⟨type.T_FILE, Data.null⟩,
   ⟨type.T_NONE, Data.null⟩]

/-! ## The pthread calls of `state.c` -/

/-- The calls of `state.c` on its locks: the global `lock` taken by
`inode_create`, and the lock `rwl` of the slot `i`. -/
inductive StateLockEvent where
  | create_wrlock
  | create_unlock
  | node_wrlock (i : Int)
  | node_rdlock (i : Int)
  | node_trywrlock (i : Int)
  | node_tryrdlock (i : Int)
  | node_unlock (i : Int)
deriving DecidableEq, Repr

/-- How a call of `inode_lock` ends: it returns a value after the calls it
made on the node locks, or it ends the process with `exit`. -/
inductive LockResult where
  | returned (value : Int) (calls : List StateLockEvent)
  | exited
deriving DecidableEq, Repr

/-- The function `inode_lock`. `rc` is the value the pthread function
returns in the two non-blocking modes (`0` when the lock was acquired, an
error number such as `EBUSY` when it would have blocked); the blocking calls
are taken to succeed. -/
def inode_lock (c : Consts) (t : Table) (rc : Int) (inumber : Int) (flag : List Char) :
    Option LockResult :=
  match invalid_inumber c t 0 inumber with
  | none => none
  | some true => some (LockResult.returned c.FAIL [])
  | some false =>
    if flag = ['w'] then
      some (LockResult.returned 1 [StateLockEvent.node_wrlock inumber])
    else if flag = ['r'] then
      some (LockResult.returned 1 [StateLockEvent.node_rdlock inumber])
    else if flag = ['m', 'w'] then
      some (LockResult.returned rc [StateLockEvent.node_trywrlock inumber])
    else if flag = ['m', 'r'] then
      some (LockResult.returned rc [StateLockEvent.node_tryrdlock inumber])
    else some LockResult.exited

/-- The calls `inode_create` makes on the global `lock` along its loop, with
`k` iterations left from index `inumber`: the lock is released before each
of the two `return` statements. -/
def inode_create_loop_locks (t : Table) : Nat → Nat → Option (List StateLockEvent)
  | 0, _ => some [StateLockEvent.create_unlock]
  | k + 1, inumber =>
    match t[inumber]? with
    | none => none
    | some n =>
      if n.nodeType = type.T_NONE then some [StateLockEvent.create_unlock]
      else inode_create_loop_locks t k (inumber + 1)

/-- The calls of `inode_create` on the locks: the write lock is taken on
entry. -/
def inode_create_locks (c : Consts) (t : Table) : Option (List StateLockEvent) :=
  match inode_create_loop_locks t c.INODE_TABLE_SIZE 0 with
  | none => none
  | some evs => some (StateLockEvent.create_wrlock :: evs)

/-- A call of one of the six operations of the i-node table, with its
arguments. -/
inductive TableCall where
  | create (names : Nat → List Char) (nType : type)
  | delete (inumber : Int)
  | get (inumber : Int) (wantType wantData : Bool)
  | add_entry (inumber sub_inumber : Int) (sub_name : List Char)
  | reset_entry (inumber sub_inumber : Int)
  | print_tree (fuel : Nat) (inumber : Int) (name : List Char)

/-- The calls a table operation makes on the locks. The bodies of
`inode_delete`, `inode_get`, `dir_reset_entry`, `dir_add_entry` and
`inode_print_tree` contain no call of a pthread function. -/
def lock_events (c : Consts) (t : Table) : TableCall → Option (List StateLockEvent)
  | TableCall.create _ _ => inode_create_locks c t
  | _ => some []

/-! ## The locks of `exercicio1/fs/sync.c` -/

namespace Sync

/-- The two global locks of `sync.c`. -/
inductive SyncLock where
  | mutex
  | rwl
deriving DecidableEq, Repr

/-- The pthread calls of `sync.c` on its two locks. -/
inductive SyncEvent where
  | mutex_init
  | rwlock_init
  | mutex_lock
  | mutex_unlock
  | rwlock_wrlock
  | rwlock_rdlock
  | rwlock_unlock
  | mutex_destroy
  | rwlock_destroy
deriving DecidableEq, Repr

/-- How a call ends: it returns after the pthread calls it made, or it ends
the process with `exit` (an argument of `lock` that is neither `r` nor `w`
under the strategy `rwlock`). The pthread calls are taken to succeed. -/
structure Outcome where
  events : List SyncEvent
  exited : Bool
deriving DecidableEq, Repr

/-- The three strategy names the code compares `gStrat` with. -/
def nosync : List Char := "nosync".toList

/-- The name of the strategy with one mutex. -/
def mutex : List Char := "mutex".toList

/-- The name of the strategy with the read-write lock. -/
def rwlock : List Char := "rwlock".toList

/-- The function `initLock`: the new value of the global `gStrat` (the
string it points to) and the locks constructed. -/
def initLock (syncstrat : List Char) : List Char × List SyncEvent :=
  if syncstrat = nosync then (syncstrat, [])
  else
    (syncstrat,
      (if syncstrat = mutex then [SyncEvent.mutex_init] else []) ++
      (if syncstrat = rwlock then [SyncEvent.rwlock_init] else []))

/-- The function `lock`, called when `gStrat` points to the string
`gStrat`. -/
def lock (gStrat : List Char) (rw : Char) : Outcome :=
  if gStrat = nosync then ⟨[], false⟩
  else
    let first : Outcome :=
      if gStrat = rwlock then
        if rw = 'w' then ⟨[SyncEvent.rwlock_wrlock], false⟩
        else if rw = 'r' then ⟨[SyncEvent.rwlock_rdlock], false⟩
        else ⟨[], true⟩
      else ⟨[], false⟩
    if first.exited then first
    else if gStrat = mutex then ⟨first.events ++ [SyncEvent.mutex_lock], false⟩
    else first

/-- The function `unlock`. -/
def unlock (gStrat : List Char) : Outcome :=
  if gStrat = nosync then ⟨[], false⟩
  else
    ⟨(if gStrat = rwlock then [SyncEvent.rwlock_unlock] else []) ++
      (if gStrat = mutex then [SyncEvent.mutex_unlock] else []), false⟩

/-- The function `destroyLock`. -/
def destroyLock (gStrat : List Char) : Outcome :=
  ⟨(if gStrat = rwlock then [SyncEvent.rwlock_destroy] else []) ++
    (if gStrat = mutex then [SyncEvent.mutex_destroy] else []), false⟩

/-- The function `commandLock`. -/
def commandLock (gStrat : List Char) : Outcome :=
  if gStrat = rwlock ∨ gStrat = mutex then ⟨[SyncEvent.mutex_lock], false⟩
  else ⟨[], false⟩

/-- The function `commandUnlock`. -/
def commandUnlock (gStrat : List Char) : Outcome :=
  if gStrat = rwlock ∨ gStrat = mutex then ⟨[SyncEvent.mutex_unlock], false⟩
  else ⟨[], false⟩

/-- The lock a pthread call is made on. -/
def lock_of : SyncEvent → SyncLock
  | SyncEvent.mutex_init => SyncLock.mutex
  | SyncEvent.mutex_lock => SyncLock.mutex
  | SyncEvent.mutex_unlock => SyncLock.mutex
  | SyncEvent.mutex_destroy => SyncLock.mutex
  | SyncEvent.rwlock_init => SyncLock.rwl
  | SyncEvent.rwlock_wrlock => SyncLock.rwl
  | SyncEvent.rwlock_rdlock => SyncLock.rwl
  | SyncEvent.rwlock_unlock => SyncLock.rwl
  | SyncEvent.rwlock_destroy => SyncLock.rwl

/-- The locks constructed by a sequence of calls. -/
def constructed (evs : List SyncEvent) : List SyncLock :=
  (evs.filter fun e => decide (e = SyncEvent.mutex_init ∨ e = SyncEvent.rwlock_init)).map
    lock_of

/-- The locks acquired by a sequence of calls. -/
def acquired (evs : List SyncEvent) : List SyncLock :=
  (evs.filter fun e => decide (e = SyncEvent.mutex_lock ∨ e = SyncEvent.rwlock_wrlock ∨
    e = SyncEvent.rwlock_rdlock)).map lock_of

end Sync

/-! ## The invariant on directory entries -/

/-- Whether the inumber `i` is inside the table and its slot is taken. -/
def taken (c : Consts) (t : Table) (i : Int) : Bool :=
  match inode_at c t i with
  | none => false
  | some n => decide (n.nodeType ≠ type.T_NONE)

/-- The entry sequence of a node: the block of a directory, and nothing for
the other kinds. -/
def node_entries (n : inode_t) : List DirEntry :=
  match n.nodeType, n.data with
  | type.T_DIRECTORY, Data.block es => es
  | _, _ => []

/-- The invariant of the spec on one entry sequence: no two non-free entries
have the same name, no two have the same child inumber, and the child
inumber of every non-free entry is a taken slot of the table. -/
def entries_inv (c : Consts) (t : Table) (es : List DirEntry) : Prop :=
  ((live_entries c es).map DirEntry.name).Nodup ∧
  ((live_entries c es).map DirEntry.inumber).Nodup ∧
  ∀ e ∈ live_entries c es, taken c t e.inumber = true

instance (c : Consts) (t : Table) (es : List DirEntry) : Decidable (entries_inv c t es) :=
  inferInstanceAs (Decidable
    (((live_entries c es).map DirEntry.name).Nodup ∧
     ((live_entries c es).map DirEntry.inumber).Nodup ∧
     ∀ e ∈ live_entries c es, taken c t e.inumber = true))

/-- The invariant of the spec on the table: it holds of the entry sequence
of every directory. -/
def table_inv (c : Consts) (t : Table) : Prop :=
  ∀ n ∈ t, entries_inv c t (node_entries n)

instance (c : Consts) (t : Table) : Decidable (table_inv c t) :=
  inferInstanceAs (Decidable (∀ n ∈ t, entries_inv c t (node_entries n)))

/-- A table of three slots for `c0`: the directory in slot 0 holds the file
of slot 1 under the name `a`, and slot 2 is a file no entry refers to. -/
def dir_a_files : Table :=
  [⟨type.T_DIRECTORY, Data.block [⟨['a'], 1⟩, ⟨[], -1⟩]⟩,
   ⟨type.T_FILE, Data.null⟩,
   ⟨type.T_FILE, Data.null⟩]

/-! ## The scan of `inode_create` -/

theorem inode_create_loop_none_free (c : Consts) (names : Nat → List Char) (t : Table)
    (nType : type) (k i : Nat)
    (h : ∀ j, i ≤ j → j < i + k → ∃ n, t[j]? = some n ∧ n.nodeType ≠ type.T_NONE) :
    inode_create_loop c names t nType k i = some (c.FAIL, t) := by
  induction k generalizing i with
  | zero => rfl
  | succ k ih =>
    obtain ⟨n, hn, hk⟩ := h i le_rfl (by omega)
    have hrec := ih (i + 1) (fun j h1 h2 => h j (by omega) (by omega))
    simp [inode_create_loop, hn, hk, hrec]

theorem inode_create_loop_found (c : Consts) (names : Nat → List Char) (t : Table)
    (nType : type) (k i m : Nat) (n : inode_t)
    (him : i ≤ m) (hmk : m < i + k) (hm : t[m]? = some n) (hn : n.nodeType = type.T_NONE)
    (h : ∀ j, i ≤ j → j < m → ∃ n', t[j]? = some n' ∧ n'.nodeType ≠ type.T_NONE) :
    inode_create_loop c names t nType k i
      = some ((m : Int), t.set m (new_inode c names nType)) := by
  induction k generalizing i with
  | zero => omega
  | succ k ih =>
    by_cases hi : i = m
    · subst hi
      simp [inode_create_loop, hm, hn]
    · obtain ⟨n', hn', hk'⟩ := h i le_rfl (by omega)
      have hrec := ih (i + 1) (by omega) (by omega) (fun j h1 h2 => h j (by omega) h2)
      simp [inode_create_loop, hn', hk', hrec]

theorem kind_at_not_none (t : Table) (j : Nat) (hj : j < t.length)
    (h : kind_at t j ≠ some type.T_NONE) :
    ∃ n, t[j]? = some n ∧ n.nodeType ≠ type.T_NONE := by
  refine ⟨t[j], List.getElem?_eq_getElem hj, ?_⟩
  intro hn
  apply h
  simp [kind_at, List.getElem?_eq_getElem hj, hn]

theorem kind_at_is_none (t : Table) (j : Nat) (h : kind_at t j = some type.T_NONE) :
    ∃ n, t[j]? = some n ∧ n.nodeType = type.T_NONE := by
  unfold kind_at at h
  cases hj : t[j]? with
  | none => simp [hj] at h
  | some n =>
    refine ⟨n, rfl, ?_⟩
    simpa [hj] using h

/-- The two outcomes of the scan: the table has no free slot and the call
returns `FAIL` leaving the table as it was, or the first free slot `m` is
taken. -/
theorem inode_create_cases (c : Consts) (names : Nat → List Char) (t : Table) (nType : type)
    (hlen : t.length = c.INODE_TABLE_SIZE) :
    ((∀ i, i < c.INODE_TABLE_SIZE → kind_at t i ≠ some type.T_NONE) ∧
        inode_create c names t nType = some (c.FAIL, t)) ∨
    (∃ m, m < c.INODE_TABLE_SIZE ∧ kind_at t m = some type.T_NONE ∧
        (∀ j, j < m → kind_at t j ≠ some type.T_NONE) ∧
        inode_create c names t nType
          = some ((m : Int), t.set m (new_inode c names nType))) := by
  by_cases hex : ∃ i, i < c.INODE_TABLE_SIZE ∧ kind_at t i = some type.T_NONE
  · right
    classical
    have hm := Nat.find_spec hex
    have hmin : ∀ j, j < Nat.find hex → kind_at t j ≠ some type.T_NONE := by
      intro j hj hk
      exact Nat.find_min hex hj ⟨by omega, hk⟩
    obtain ⟨n, hn, hnk⟩ := kind_at_is_none t _ hm.2
    refine ⟨Nat.find hex, hm.1, hm.2, hmin, ?_⟩
    unfold inode_create
    apply inode_create_loop_found c names t nType _ 0 _ n (Nat.zero_le _) (by omega) hn hnk
    intro j _ hj
    exact kind_at_not_none t j (by omega) (hmin j hj)
  · left
    have hall : ∀ i, i < c.INODE_TABLE_SIZE → kind_at t i ≠ some type.T_NONE :=
      fun i hi hk => hex ⟨i, hi, hk⟩
    refine ⟨hall, ?_⟩
    unfold inode_create
    apply inode_create_loop_none_free
    intro j _ hj
    exact kind_at_not_none t j (by omega) (hall j (by omega))

theorem new_inode_nodeType (c : Consts) (names : Nat → List Char) (nType : type) :
    (new_inode c names nType).nodeType = nType := by
  unfold new_inode
  split <;> rfl

theorem new_inode_data_ne_freed (c : Consts) (names : Nat → List Char) (nType : type) :
    (new_inode c names nType).data ≠ Data.freed := by
  unfold new_inode
  split <;> simp

theorem kind_at_set (t : Table) (m j : Nat) (x : inode_t) (hm : m < t.length) :
    kind_at (t.set m x) j = if m = j then some x.nodeType else kind_at t j := by
  unfold kind_at
  rw [List.getElem?_set]
  by_cases h : m = j
  · subst h
    simp [hm]
  · simp [h]

/-- When slot `m` is free and every slot below it is taken, `inode_create`
takes slot `m`. -/
theorem inode_create_at_first_free (c : Consts) (names : Nat → List Char) (t : Table)
    (nType : type) (m : Nat) (hlen : t.length = c.INODE_TABLE_SIZE)
    (hm : m < c.INODE_TABLE_SIZE) (hk : kind_at t m = some type.T_NONE)
    (hlt : ∀ j, j < m → kind_at t j ≠ some type.T_NONE) :
    inode_create c names t nType = some ((m : Int), t.set m (new_inode c names nType)) := by
  rcases inode_create_cases c names t nType hlen with ⟨hall, _⟩ | ⟨m', _, hk', hmin, hr⟩
  · exact absurd hk (hall m hm)
  · have h1 : ¬ m' < m := fun h => hlt m' h hk'
    have h2 : ¬ m < m' := fun h => hmin m h hk
    have : m' = m := by omega
    subst this
    exact hr

/-- When every slot is taken, `inode_create` returns `FAIL` and leaves the
table as it was. -/
theorem inode_create_full (c : Consts) (names : Nat → List Char) (t : Table)
    (nType : type) (hlen : t.length = c.INODE_TABLE_SIZE)
    (hall : ∀ j, j < c.INODE_TABLE_SIZE → kind_at t j ≠ some type.T_NONE) :
    inode_create c names t nType = some (c.FAIL, t) := by
  rcases inode_create_cases c names t nType hlen with ⟨_, hr⟩ | ⟨m, hm, hk, _, _⟩
  · exact hr
  · exact absurd hk (hall m hm)

theorem filled_upto_init (c : Consts) : filled_upto c 0 (inode_table_init c) := by
  refine ⟨by simp [inode_table_init], fun j hj => absurd hj (Nat.not_lt_zero j), ?_, ?_⟩
  · intro j _ hj
    simp [kind_at, inode_table_init, List.getElem?_replicate, hj]
  · intro n hn
    simp only [inode_table_init, List.mem_replicate] at hn
    rw [hn.2]
    simp

theorem filled_upto_step (c : Consts) (names : Nat → List Char) (t : Table) (nType : type)
    (m : Nat) (h : filled_upto c m t) (hm : m < c.INODE_TABLE_SIZE)
    (hk : nType ≠ type.T_NONE) :
    filled_upto c (m + 1) (t.set m (new_inode c names nType)) := by
  obtain ⟨hlen, hlo, hhi, hd⟩ := h
  refine ⟨by simp [hlen], ?_, ?_, ?_⟩
  · intro j hj
    rw [kind_at_set t m j _ (by omega)]
    by_cases hmj : m = j
    · simp [hmj, new_inode_nodeType, hk]
    · simp only [hmj, if_false]
      exact hlo j (by omega)
  · intro j hj1 hj2
    rw [kind_at_set t m j _ (by omega)]
    have hmj : m ≠ j := by omega
    simp only [hmj, if_false]
    exact hhi j (by omega) hj2
  · intro n hn
    rcases List.mem_or_eq_of_mem_set hn with h1 | h1
    · exact hd n h1
    · rw [h1]
      exact new_inode_data_ne_freed c names nType

/-- From a table whose first `m` slots are the taken ones, as many calls of
`inode_create` as there are free slots return `m`, `m + 1`, ... in turn and
fill the table. -/
theorem inode_create_seq_fill (c : Consts) (qs : List (type × (Nat → List Char)))
    (hq : ∀ q ∈ qs, q.1 = type.T_FILE ∨ q.1 = type.T_DIRECTORY) :
    ∀ (m : Nat) (t : Table), filled_upto c m t → m + qs.length = c.INODE_TABLE_SIZE →
      ∃ tfull, inode_create_seq c t qs
          = some ((List.range' m qs.length).map Int.ofNat, tfull) ∧
        filled_upto c c.INODE_TABLE_SIZE tfull := by
  induction qs with
  | nil =>
    intro m t h hm
    simp only [List.length_nil, Nat.add_zero] at hm
    subst hm
    exact ⟨t, rfl, h⟩
  | cons q qs ih =>
    intro m t h hm
    simp only [List.length_cons] at hm
    have hkind : q.1 ≠ type.T_NONE := by
      rcases hq q (List.mem_cons_self _ _) with h1 | h1 <;> rw [h1] <;> decide
    have hcreate := inode_create_at_first_free c q.2 t q.1 m h.1 (by omega)
      (h.2.2.1 m le_rfl (by omega)) h.2.1
    have hstep := filled_upto_step c q.2 t q.1 m h (by omega) hkind
    obtain ⟨tfull, hseq, hfull⟩ :=
      ih (fun q' hq' => hq q' (List.mem_cons_of_mem _ hq')) (m + 1) _ hstep (by omega)
    refine ⟨tfull, ?_, hfull⟩
    simp [inode_create_seq, hcreate, hseq, List.range'_succ]

/-- On an inumber inside the table whose slot is taken and holds no dangling
pointer, `inode_delete` returns `SUCCESS` and resets the kind of the slot. -/
theorem inode_delete_taken (c : Consts) (t : Table) (j : Nat) (n : inode_t)
    (hj : j < c.INODE_TABLE_SIZE) (hn : t[j]? = some n) (hk : n.nodeType ≠ type.T_NONE)
    (hd : n.data ≠ Data.freed) :
    ∃ d, inode_delete c t (j : Int) = some (c.SUCCESS, t.set j ⟨type.T_NONE, d⟩) := by
  have hat : inode_at c t (j : Int) = some n := by
    simp [inode_at, hj, hn]
  have hinv : invalid_inumber c t 0 (j : Int) = some false := by
    simp [invalid_inumber, hat, hk]
    omega
  cases hdata : n.data with
  | null => exact ⟨Data.null, by simp [inode_delete, hinv, hat, hdata]⟩
  | block es => exact ⟨Data.freed, by simp [inode_delete, hinv, hat, hdata]⟩
  | freed => exact absurd hdata hd

/-! ## The guard on inumbers -/

/-- At the index `INODE_TABLE_SIZE` the guard neither rejects the inumber
nor finds a slot to read: the comparison is `i > INODE_TABLE_SIZE`, and the
array has no element `INODE_TABLE_SIZE`. -/
theorem invalid_inumber_at_table_size (c : Consts) (t : Table) (lo : Int)
    (hlo : lo ≤ (c.INODE_TABLE_SIZE : Int)) :
    invalid_inumber c t lo (c.INODE_TABLE_SIZE : Int) = none := by
  have h1 : ¬ ((c.INODE_TABLE_SIZE : Int) < lo ∨
      (c.INODE_TABLE_SIZE : Int) > (c.INODE_TABLE_SIZE : Int)) := by omega
  unfold invalid_inumber
  rw [if_neg h1]
  simp [inode_at]

/-- What the guard letting an inumber through means: the inumber is inside
the table and its slot is taken. -/
theorem invalid_inumber_false (c : Consts) (t : Table) (lo i : Int)
    (h : invalid_inumber c t lo i = some false) :
    lo ≤ i ∧ 0 ≤ i ∧ i < c.INODE_TABLE_SIZE ∧
      ∃ n, inode_at c t i = some n ∧ t[i.toNat]? = some n ∧ n.nodeType ≠ type.T_NONE := by
  unfold invalid_inumber at h
  split at h
  · simp at h
  · rename_i hrange
    cases hat : inode_at c t i with
    | none => simp [hat] at h
    | some n =>
      simp only [hat, Option.some.injEq, decide_eq_false_iff_not] at h
      have hat' := hat
      unfold inode_at at hat'
      split at hat'
      · rename_i hb
        exact ⟨by omega, hb.1, hb.2, n, rfl, hat', h⟩
      · simp at hat'

/-- The guard lets through every inumber inside the table whose slot is
taken. -/
theorem invalid_inumber_taken (c : Consts) (t : Table) (lo : Int) (i : Nat) (n : inode_t)
    (hlo : lo ≤ (i : Int)) (hi : i < c.INODE_TABLE_SIZE) (hn : t[i]? = some n)
    (hk : n.nodeType ≠ type.T_NONE) :
    inode_at c t (i : Int) = some n ∧ invalid_inumber c t lo (i : Int) = some false := by
  have hat : inode_at c t (i : Int) = some n := by
    simp [inode_at, hi, hn]
  refine ⟨hat, ?_⟩
  have h1 : ¬ ((i : Int) < lo ∨ (i : Int) > (c.INODE_TABLE_SIZE : Int)) := by omega
  unfold invalid_inumber
  rw [if_neg h1]
  simp [hat, hk]

/-! ## The scans of the directory entries -/

theorem dir_reset_loop_eq_scan (c : Consts) (es : List DirEntry) (sub_inumber : Int)
    (k i : Nat) :
    dir_reset_loop c (Data.block es) sub_inumber k i
      = entries_scan es sub_inumber ⟨[], c.FREE_INODE⟩ k i := by
  induction k generalizing i with
  | zero => rfl
  | succ k ih =>
    simp only [dir_reset_loop, entries_scan, entry_at, ih]
    cases es[i]? <;> rfl

/-- Without a live block the loops of `dir_reset_entry` and `dir_add_entry`
end at once when `MAX_DIR_ENTRIES` is zero and dereference a bad pointer
otherwise. -/
theorem dir_reset_loop_no_block (c : Consts) (d : Data) (sub_inumber : Int) (k : Nat)
    (hd : ∀ es, d ≠ Data.block es) :
    dir_reset_loop c d sub_inumber k 0 = if k = 0 then some none else none := by
  cases k with
  | zero => rfl
  | succ k =>
    cases d with
    | block es => exact absurd rfl (hd es)
    | null => rfl
    | freed => rfl

theorem dir_add_loop_no_block (c : Consts) (d : Data) (sub_inumber : Int)
    (sub_name : List Char) (k : Nat) (hd : ∀ es, d ≠ Data.block es) :
    dir_add_loop c d sub_inumber sub_name k 0 = if k = 0 then some none else none := by
  cases k with
  | zero => rfl
  | succ k =>
    cases d with
    | block es => exact absurd rfl (hd es)
    | null => rfl
    | freed => rfl

theorem dir_add_loop_eq_scan (c : Consts) (es : List DirEntry) (sub_inumber : Int)
    (sub_name : List Char) (k i : Nat) (hfit : sub_name.length < c.MAX_FILE_NAME) :
    dir_add_loop c (Data.block es) sub_inumber sub_name k i
      = entries_scan es c.FREE_INODE ⟨sub_name, sub_inumber⟩ k i := by
  induction k generalizing i with
  | zero => rfl
  | succ k ih =>
    simp only [dir_add_loop, entries_scan, entry_at, ih, strcpy_name, hfit, if_true]
    cases es[i]? <;> rfl

/-- The loop of `dir_add_entry` ends without a write, whatever the name,
when none of the entries it reads is free. -/
theorem dir_add_loop_absent (c : Consts) (es : List DirEntry) (sub_inumber : Int)
    (sub_name : List Char) (k i : Nat)
    (h : ∀ j, i ≤ j → j < i + k → ∃ e', es[j]? = some e' ∧ e'.inumber ≠ c.FREE_INODE) :
    dir_add_loop c (Data.block es) sub_inumber sub_name k i = some none := by
  induction k generalizing i with
  | zero => rfl
  | succ k ih =>
    obtain ⟨e', he', hk'⟩ := h i le_rfl (by omega)
    have hrec := ih (i + 1) (fun j h1 h2 => h j (by omega) (by omega))
    simp [dir_add_loop, entry_at, he', hk', hrec]

/-- The loop of `dir_add_entry` writes an entry only for a name that fits
the name array. -/
theorem dir_add_loop_some_fits (c : Consts) (d : Data) (sub_inumber : Int)
    (sub_name : List Char) (k i : Nat) (es' : List DirEntry)
    (h : dir_add_loop c d sub_inumber sub_name k i = some (some es')) :
    sub_name.length < c.MAX_FILE_NAME := by
  induction k generalizing i with
  | zero => simp [dir_add_loop] at h
  | succ k ih =>
    unfold dir_add_loop at h
    cases hentry : entry_at d i with
    | none => simp [hentry] at h
    | some q =>
      obtain ⟨es, e⟩ := q
      simp only [hentry] at h
      by_cases he : e.inumber = c.FREE_INODE
      · simp only [he, if_true] at h
        by_cases hfit : sub_name.length < c.MAX_FILE_NAME
        · exact hfit
        · simp [strcpy_name, hfit] at h
      · simp only [he, if_false] at h
        exact ih (i + 1) h

theorem entries_scan_found (es : List DirEntry) (target : Int) (entry : DirEntry)
    (k i m : Nat) (e : DirEntry) (him : i ≤ m) (hmk : m < i + k) (hm : es[m]? = some e)
    (he : e.inumber = target)
    (h : ∀ j, i ≤ j → j < m → ∃ e', es[j]? = some e' ∧ e'.inumber ≠ target) :
    entries_scan es target entry k i = some (some (es.set m entry)) := by
  induction k generalizing i with
  | zero => omega
  | succ k ih =>
    by_cases hi : i = m
    · subst hi
      simp [entries_scan, hm, he]
    · obtain ⟨e', he', hk'⟩ := h i le_rfl (by omega)
      have hrec := ih (i + 1) (by omega) (by omega) (fun j h1 h2 => h j (by omega) h2)
      simp [entries_scan, he', hk', hrec]

theorem entries_scan_absent (es : List DirEntry) (target : Int) (entry : DirEntry)
    (k i : Nat)
    (h : ∀ j, i ≤ j → j < i + k → ∃ e', es[j]? = some e' ∧ e'.inumber ≠ target) :
    entries_scan es target entry k i = some none := by
  induction k generalizing i with
  | zero => rfl
  | succ k ih =>
    obtain ⟨e', he', hk'⟩ := h i le_rfl (by omega)
    have hrec := ih (i + 1) (fun j h1 h2 => h j (by omega) (by omega))
    simp [entries_scan, he', hk', hrec]

theorem entries_scan_some (es : List DirEntry) (target : Int) (entry : DirEntry)
    (k i : Nat) (es' : List DirEntry)
    (h : entries_scan es target entry k i = some (some es')) :
    ∃ m e, i ≤ m ∧ m < i + k ∧ es[m]? = some e ∧ e.inumber = target ∧
      (∀ j, i ≤ j → j < m → ∃ e', es[j]? = some e' ∧ e'.inumber ≠ target) ∧
      es' = es.set m entry := by
  induction k generalizing i with
  | zero => simp [entries_scan] at h
  | succ k ih =>
    unfold entries_scan at h
    cases hi : es[i]? with
    | none => simp [hi] at h
    | some e =>
      simp only [hi] at h
      by_cases he : e.inumber = target
      · simp only [he, if_true, Option.some.injEq] at h
        exact ⟨i, e, le_rfl, by omega, hi, he, fun j h1 h2 => by omega, h.symm⟩
      · simp only [he, if_false] at h
        obtain ⟨m, e', h1, h2, h3, h4, h5, h6⟩ := ih (i + 1) h
        refine ⟨m, e', by omega, by omega, h3, h4, ?_, h6⟩
        intro j hj1 hj2
        by_cases hji : j = i
        · subst hji
          exact ⟨e, hi, he⟩
        · exact h5 j (by omega) hj2

theorem entries_scan_none (es : List DirEntry) (target : Int) (entry : DirEntry)
    (k i : Nat) (h : entries_scan es target entry k i = some none) :
    ∀ j, i ≤ j → j < i + k → ∃ e', es[j]? = some e' ∧ e'.inumber ≠ target := by
  induction k generalizing i with
  | zero => intro j h1 h2; omega
  | succ k ih =>
    unfold entries_scan at h
    cases hi : es[i]? with
    | none => simp [hi] at h
    | some e =>
      simp only [hi] at h
      by_cases he : e.inumber = target
      · simp [he] at h
      · simp only [he, if_false] at h
        intro j hj1 hj2
        by_cases hji : j = i
        · subst hji
          exact ⟨e, hi, he⟩
        · exact ih (i + 1) h j (by omega) (by omega)

/-! ## The two outcomes of `dir_add_entry` and of `dir_reset_entry` -/

/-- Every defined result of `dir_add_entry` is `FAIL` with the table as it
was, or `SUCCESS` with the first free entry of the parent directory
overwritten. -/
theorem dir_add_entry_inv (c : Consts) (t : Table) (p s : Int) (name : List Char)
    (r : Int) (t1 : Table) (h : dir_add_entry c t p s name = some (r, t1)) :
    (r = c.FAIL ∧ t1 = t) ∨
    (r = c.SUCCESS ∧ ∃ n es m e,
      0 ≤ p ∧ p < c.INODE_TABLE_SIZE ∧ inode_at c t p = some n ∧ t[p.toNat]? = some n ∧
      n.nodeType = type.T_DIRECTORY ∧ n.data = Data.block es ∧
      0 ≤ s ∧ s < c.INODE_TABLE_SIZE ∧
      (∃ ns, t[s.toNat]? = some ns ∧ ns.nodeType ≠ type.T_NONE) ∧
      (name.length ≠ 0 ∧ name.length < c.MAX_FILE_NAME) ∧
      m < c.MAX_DIR_ENTRIES ∧ es[m]? = some e ∧ e.inumber = c.FREE_INODE ∧
      (∀ j, j < m → ∃ e', es[j]? = some e' ∧ e'.inumber ≠ c.FREE_INODE) ∧
      t1 = t.set p.toNat ⟨n.nodeType, Data.block (es.set m ⟨name, s⟩)⟩) := by
  unfold dir_add_entry at h
  cases h1 : invalid_inumber c t 0 p with
  | none => simp [h1] at h
  | some b =>
    cases b with
    | true =>
      simp only [h1, Option.some.injEq, Prod.mk.injEq] at h
      exact Or.inl ⟨h.1.symm, h.2.symm⟩
    | false =>
      obtain ⟨_, hp0, hpN, n, hat, hn, _⟩ := invalid_inumber_false c t 0 p h1
      simp only [h1, hat] at h
      by_cases hdir : n.nodeType = type.T_DIRECTORY
      · simp only [hdir, ne_eq, not_true_eq_false, if_false] at h
        cases h2 : invalid_inumber c t 0 s with
        | none => simp [h2] at h
        | some b2 =>
          cases b2 with
          | true =>
            simp only [h2, Option.some.injEq, Prod.mk.injEq] at h
            exact Or.inl ⟨h.1.symm, h.2.symm⟩
          | false =>
            obtain ⟨_, hs0, hsN, ns, _, hns, hnsk⟩ := invalid_inumber_false c t 0 s h2
            simp only [h2] at h
            by_cases hname : name.length = 0
            · simp only [hname, if_true, Option.some.injEq, Prod.mk.injEq] at h
              exact Or.inl ⟨h.1.symm, h.2.symm⟩
            · simp only [hname, if_false] at h
              cases hdata : n.data with
              | null =>
                rw [hdata, dir_add_loop_no_block c _ _ _ _ (by simp)] at h
                by_cases hM : c.MAX_DIR_ENTRIES = 0
                · simp only [hM, if_true, Option.some.injEq, Prod.mk.injEq] at h
                  exact Or.inl ⟨h.1.symm, h.2.symm⟩
                · simp [hM] at h
              | freed =>
                rw [hdata, dir_add_loop_no_block c _ _ _ _ (by simp)] at h
                by_cases hM : c.MAX_DIR_ENTRIES = 0
                · simp only [hM, if_true, Option.some.injEq, Prod.mk.injEq] at h
                  exact Or.inl ⟨h.1.symm, h.2.symm⟩
                · simp [hM] at h
              | block es =>
                simp only [hdata] at h
                cases hloop : dir_add_loop c (Data.block es) s name c.MAX_DIR_ENTRIES 0 with
                | none => simp [hloop] at h
                | some o =>
                  cases o with
                  | none =>
                    simp only [hloop, Option.some.injEq, Prod.mk.injEq] at h
                    exact Or.inl ⟨h.1.symm, h.2.symm⟩
                  | some es' =>
                    simp only [hloop, Option.some.injEq, Prod.mk.injEq] at h
                    have hfit := dir_add_loop_some_fits c _ s name _ 0 es' hloop
                    rw [dir_add_loop_eq_scan c es s name _ 0 hfit] at hloop
                    obtain ⟨m, e, _, hm, hem, hef, hmin, hes'⟩ :=
                      entries_scan_some es _ _ _ 0 es' hloop
                    refine Or.inr ⟨h.1.symm, n, es, m, e, hp0, hpN, hat, hn, hdir, hdata,
                      hs0, hsN, ⟨ns, hns, hnsk⟩, ⟨hname, hfit⟩, by omega, hem, hef,
                      fun j hj => hmin j (Nat.zero_le j) hj, ?_⟩
                    rw [← h.2, hes', hdir]
      · simp only [hdir, ne_eq, not_false_eq_true, if_true, Option.some.injEq,
          Prod.mk.injEq] at h
        exact Or.inl ⟨h.1.symm, h.2.symm⟩

/-- Every defined result of `dir_reset_entry` is `FAIL` with the table as it
was, or `SUCCESS` with the first entry of the parent directory that holds
`sub_inumber` reset. -/
theorem dir_reset_entry_inv (c : Consts) (t : Table) (p s : Int)
    (r : Int) (t1 : Table) (h : dir_reset_entry c t p s = some (r, t1)) :
    (r = c.FAIL ∧ t1 = t) ∨
    (r = c.SUCCESS ∧ ∃ n es m e,
      0 ≤ p ∧ p < c.INODE_TABLE_SIZE ∧ inode_at c t p = some n ∧ t[p.toNat]? = some n ∧
      n.nodeType = type.T_DIRECTORY ∧ n.data = Data.block es ∧
      0 ≤ s ∧ s < c.INODE_TABLE_SIZE ∧
      (∃ ns, t[s.toNat]? = some ns ∧ ns.nodeType ≠ type.T_NONE) ∧
      m < c.MAX_DIR_ENTRIES ∧ es[m]? = some e ∧ e.inumber = s ∧
      (∀ j, j < m → ∃ e', es[j]? = some e' ∧ e'.inumber ≠ s) ∧
      t1 = t.set p.toNat ⟨n.nodeType, Data.block (es.set m ⟨[], c.FREE_INODE⟩)⟩) := by
  unfold dir_reset_entry at h
  cases h1 : invalid_inumber c t 0 p with
  | none => simp [h1] at h
  | some b =>
    cases b with
    | true =>
      simp only [h1, Option.some.injEq, Prod.mk.injEq] at h
      exact Or.inl ⟨h.1.symm, h.2.symm⟩
    | false =>
      obtain ⟨_, hp0, hpN, n, hat, hn, _⟩ := invalid_inumber_false c t 0 p h1
      simp only [h1, hat] at h
      by_cases hdir : n.nodeType = type.T_DIRECTORY
      · simp only [hdir, ne_eq, not_true_eq_false, if_false] at h
        cases h2 : invalid_inumber c t c.FREE_INODE s with
        | none => simp [h2] at h
        | some b2 =>
          cases b2 with
          | true =>
            simp only [h2, Option.some.injEq, Prod.mk.injEq] at h
            exact Or.inl ⟨h.1.symm, h.2.symm⟩
          | false =>
            obtain ⟨_, hs0, hsN, ns, _, hns, hnsk⟩ :=
              invalid_inumber_false c t c.FREE_INODE s h2
            simp only [h2] at h
            cases hdata : n.data with
            | null =>
              rw [hdata, dir_reset_loop_no_block c _ _ _ (by simp)] at h
              by_cases hM : c.MAX_DIR_ENTRIES = 0
              · simp only [hM, if_true, Option.some.injEq, Prod.mk.injEq] at h
                exact Or.inl ⟨h.1.symm, h.2.symm⟩
              · simp [hM] at h
            | freed =>
              rw [hdata, dir_reset_loop_no_block c _ _ _ (by simp)] at h
              by_cases hM : c.MAX_DIR_ENTRIES = 0
              · simp only [hM, if_true, Option.some.injEq, Prod.mk.injEq] at h
                exact Or.inl ⟨h.1.symm, h.2.symm⟩
              · simp [hM] at h
            | block es =>
              simp only [hdata, dir_reset_loop_eq_scan] at h
              cases hscan : entries_scan es s ⟨[], c.FREE_INODE⟩ c.MAX_DIR_ENTRIES 0 with
              | none => simp [hscan] at h
              | some o =>
                cases o with
                | none =>
                  simp only [hscan, Option.some.injEq, Prod.mk.injEq] at h
                  exact Or.inl ⟨h.1.symm, h.2.symm⟩
                | some es' =>
                  simp only [hscan, Option.some.injEq, Prod.mk.injEq] at h
                  obtain ⟨m, e, _, hm, hem, hef, hmin, hes'⟩ :=
                    entries_scan_some es _ _ _ 0 es' hscan
                  refine Or.inr ⟨h.1.symm, n, es, m, e, hp0, hpN, hat, hn, hdir, hdata,
                    hs0, hsN, ⟨ns, hns, hnsk⟩, by omega, hem, hef,
                    fun j hj => hmin j (Nat.zero_le j) hj, ?_⟩
                  rw [← h.2, hes', hdir]
      · simp only [hdir, ne_eq, not_false_eq_true, if_true, Option.some.injEq,
          Prod.mk.injEq] at h
        exact Or.inl ⟨h.1.symm, h.2.symm⟩

/-- Every defined result of the scan of `inode_create` is `FAIL` with the
table as it was, or an index of the table. -/
theorem inode_create_loop_inv (c : Consts) (names : Nat → List Char) (t : Table)
    (nType : type) (k i : Nat) (r : Int) (t' : Table)
    (h : inode_create_loop c names t nType k i = some (r, t')) :
    (r = c.FAIL ∧ t' = t) ∨ ∃ m : Nat, r = (m : Int) := by
  induction k generalizing i with
  | zero =>
    simp only [inode_create_loop, Option.some.injEq, Prod.mk.injEq] at h
    exact Or.inl ⟨h.1.symm, h.2.symm⟩
  | succ k ih =>
    unfold inode_create_loop at h
    cases hi : t[i]? with
    | none => simp [hi] at h
    | some n =>
      simp only [hi] at h
      by_cases hn : n.nodeType = type.T_NONE
      · simp only [hn, if_true, Option.some.injEq, Prod.mk.injEq] at h
        exact Or.inr ⟨i, h.1.symm⟩
      · simp only [hn, if_false] at h
        exact ih (i + 1) h

/-- Every defined result of `inode_delete` is `FAIL` with the table as it
was, or `SUCCESS`. -/
theorem inode_delete_inv (c : Consts) (t : Table) (i : Int) (r : Int) (t' : Table)
    (h : inode_delete c t i = some (r, t')) :
    (r = c.FAIL ∧ t' = t) ∨ r = c.SUCCESS := by
  unfold inode_delete at h
  cases h1 : invalid_inumber c t 0 i with
  | none => simp [h1] at h
  | some b =>
    cases b with
    | true =>
      simp only [h1, Option.some.injEq, Prod.mk.injEq] at h
      exact Or.inl ⟨h.1.symm, h.2.symm⟩
    | false =>
      simp only [h1] at h
      cases hat : inode_at c t i with
      | none => simp [hat] at h
      | some n =>
        simp only [hat] at h
        cases hdata : n.data with
        | null =>
          simp only [hdata, Option.some.injEq, Prod.mk.injEq] at h
          exact Or.inr h.1.symm
        | block es =>
          simp only [hdata, Option.some.injEq, Prod.mk.injEq] at h
          exact Or.inr h.1.symm
        | freed => simp [hdata] at h

/-- Every defined result of `inode_get` leaves the table as it was. -/
theorem inode_get_table (c : Consts) (t : Table) (i : Int) (wantType wantData : Bool)
    (r : Int) (o1 : Option type) (o2 : Option Data) (t' : Table)
    (h : inode_get c t i wantType wantData = some (r, o1, o2, t')) : t' = t := by
  unfold inode_get at h
  cases h1 : invalid_inumber c t 0 i with
  | none => simp [h1] at h
  | some b =>
    cases b with
    | true =>
      simp only [h1, Option.some.injEq, Prod.mk.injEq] at h
      exact h.2.2.2.symm
    | false =>
      simp only [h1] at h
      cases hat : inode_at c t i with
      | none => simp [hat] at h
      | some n =>
        simp only [hat, Option.some.injEq, Prod.mk.injEq] at h
        exact h.2.2.2.symm

/-- On a parent that is a taken directory slot and a child that is a taken
slot, `dir_reset_entry` resets the lowest-indexed entry holding the child. -/
theorem dir_reset_entry_first_match (c : Consts) (t : Table) (p s m : Nat) (np : inode_t)
    (es : List DirEntry) (e : DirEntry) (hFREE : c.FREE_INODE ≤ (s : Int))
    (hp : p < c.INODE_TABLE_SIZE) (hnp : t[p]? = some np)
    (hdir : np.nodeType = type.T_DIRECTORY) (hes : np.data = Data.block es)
    (hs : s < c.INODE_TABLE_SIZE) (hns : ∃ ns, t[s]? = some ns ∧ ns.nodeType ≠ type.T_NONE)
    (hm : m < c.MAX_DIR_ENTRIES) (hme : es[m]? = some e) (he : e.inumber = (s : Int))
    (hmin : ∀ j, j < m → ∃ e', es[j]? = some e' ∧ e'.inumber ≠ (s : Int)) :
    dir_reset_entry c t (p : Int) (s : Int)
      = some (c.SUCCESS,
          t.set p ⟨type.T_DIRECTORY, Data.block (es.set m ⟨[], c.FREE_INODE⟩)⟩) := by
  obtain ⟨ns, hns1, hns2⟩ := hns
  have hdirk : np.nodeType ≠ type.T_NONE := by rw [hdir]; decide
  obtain ⟨hatp, hinvp⟩ := invalid_inumber_taken c t 0 p np (by omega) hp hnp hdirk
  obtain ⟨_, hinvs⟩ := invalid_inumber_taken c t c.FREE_INODE s ns hFREE hs hns1 hns2
  have hscan := entries_scan_found es (s : Int) ⟨[], c.FREE_INODE⟩ c.MAX_DIR_ENTRIES 0
    m e (Nat.zero_le _) (by omega) hme he (fun j _ hj => hmin j hj)
  simp [dir_reset_entry, hinvp, hatp, hdir, hinvs, hes, dir_reset_loop_eq_scan, hscan]

/-- Overwriting a free entry by a free entry does not change the non-free
entries of a block. -/
theorem live_entries_set_free (c : Consts) (es : List DirEntry) (m : Nat) (e : DirEntry)
    (nm : List Char) (hme : es[m]? = some e) (he : e.inumber = c.FREE_INODE) :
    live_entries c (es.set m ⟨nm, c.FREE_INODE⟩) = live_entries c es := by
  induction es generalizing m with
  | nil => simp at hme
  | cons x xs ih =>
    cases m with
    | zero =>
      simp only [List.getElem?_cons_zero, Option.some.injEq] at hme
      subst hme
      simp [live_entries, List.set, he]
    | succ m =>
      simp only [List.getElem?_cons_succ] at hme
      have := ih m hme
      simp only [live_entries] at this ⊢
      simp only [List.set_cons_succ, List.filter_cons, this]

theorem entries_of_set (c : Consts) (t : Table) (p : Nat) (k : type) (es : List DirEntry)
    (hp : p < c.INODE_TABLE_SIZE) (hlen : p < t.length) :
    entries_of c (t.set p ⟨k, Data.block es⟩) (p : Int) = es := by
  simp [entries_of, inode_at, hp, List.getElem?_set_self hlen]

/-! ## The operations on inumbers other than `INODE_TABLE_SIZE` -/

/-- The guard rejects every inumber other than `INODE_TABLE_SIZE` that lies
outside the table or whose slot is free. -/
theorem invalid_inumber_rejects (c : Consts) (t : Table) (i : Int)
    (hi : i ≠ (c.INODE_TABLE_SIZE : Int))
    (h : i < 0 ∨ (c.INODE_TABLE_SIZE : Int) ≤ i ∨ kind_at t i.toNat = some type.T_NONE) :
    invalid_inumber c t 0 i = some true := by
  unfold invalid_inumber
  by_cases hr : i < 0 ∨ i > (c.INODE_TABLE_SIZE : Int)
  · rw [if_pos hr]
  · rw [if_neg hr]
    have hk : kind_at t i.toNat = some type.T_NONE := by
      rcases h with h | h | h
      · omega
      · omega
      · exact h
    obtain ⟨n, hn, hnk⟩ := kind_at_is_none t _ hk
    have hat : inode_at c t i = some n := by
      unfold inode_at
      rw [if_pos (by omega)]
      exact hn
    simp [hat, hnk]

/-- Away from `INODE_TABLE_SIZE`, `inode_delete` returns `FAIL` on every
inumber outside the table and on every free slot, and leaves the table as
it was. -/
theorem inode_delete_fails (c : Consts) (t : Table) (i : Int)
    (hi : i ≠ (c.INODE_TABLE_SIZE : Int))
    (h : i < 0 ∨ (c.INODE_TABLE_SIZE : Int) ≤ i ∨ kind_at t i.toNat = some type.T_NONE) :
    inode_delete c t i = some (c.FAIL, t) := by
  simp [inode_delete, invalid_inumber_rejects c t i hi h]

/-- Away from `INODE_TABLE_SIZE`, `inode_get` returns `FAIL` on every
inumber outside the table and on every free slot, and writes no output. -/
theorem inode_get_fails (c : Consts) (t : Table) (i : Int) (wantType wantData : Bool)
    (hi : i ≠ (c.INODE_TABLE_SIZE : Int))
    (h : i < 0 ∨ (c.INODE_TABLE_SIZE : Int) ≤ i ∨ kind_at t i.toNat = some type.T_NONE) :
    inode_get c t i wantType wantData = some (c.FAIL, none, none, t) := by
  simp [inode_get, invalid_inumber_rejects c t i hi h]

/-- On a taken slot inside the table, `inode_get` returns `SUCCESS`, writes
the outputs asked for from the slot and leaves the table as it was. -/
theorem inode_get_taken (c : Consts) (t : Table) (i : Nat) (n : inode_t)
    (wantType wantData : Bool) (hi : i < c.INODE_TABLE_SIZE) (hn : t[i]? = some n)
    (hk : n.nodeType ≠ type.T_NONE) :
    inode_get c t (i : Int) wantType wantData
      = some (c.SUCCESS, (if wantType then some n.nodeType else none),
          (if wantData then some n.data else none), t) := by
  obtain ⟨hat, hinv⟩ := invalid_inumber_taken c t 0 i n (by omega) hi hn hk
  simp [inode_get, hinv, hat]

/-- On a table of `INODE_TABLE_SIZE` slots the guard is defined on every
inumber other than `INODE_TABLE_SIZE` that is not between `lo` and `0`: it
rejects the inumber, which is then outside the table or on a free slot, or
lets it through, and the inumber is then a taken slot of the table. -/
theorem invalid_inumber_cases (c : Consts) (t : Table) (lo i : Int)
    (hlen : t.length = c.INODE_TABLE_SIZE) (hi : i ≠ (c.INODE_TABLE_SIZE : Int))
    (hlo : i < lo ∨ 0 ≤ i) :
    (invalid_inumber c t lo i = some true ∧
      (i < lo ∨ (c.INODE_TABLE_SIZE : Int) ≤ i ∨ kind_at t i.toNat = some type.T_NONE)) ∨
    (∃ (k : Nat) (n : inode_t), i = (k : Int) ∧ k < c.INODE_TABLE_SIZE ∧ t[k]? = some n ∧
      n.nodeType ≠ type.T_NONE ∧ inode_at c t i = some n ∧
      invalid_inumber c t lo i = some false) := by
  by_cases hr : i < lo ∨ i > (c.INODE_TABLE_SIZE : Int)
  · left
    refine ⟨by unfold invalid_inumber; rw [if_pos hr], ?_⟩
    rcases hr with hr | hr
    · exact Or.inl hr
    · exact Or.inr (Or.inl (by omega))
  · have h0 : 0 ≤ i := by omega
    obtain ⟨k, rfl⟩ := Int.eq_ofNat_of_zero_le h0
    have hk : k < c.INODE_TABLE_SIZE := by omega
    have hn : t[k]? = some t[k] := List.getElem?_eq_getElem (by omega)
    have hat : inode_at c t (k : Int) = some t[k] := by
      simp [inode_at, hk, hn]
    by_cases hkind : (t[k]).nodeType = type.T_NONE
    · left
      refine ⟨?_, Or.inr (Or.inr ?_)⟩
      · unfold invalid_inumber
        rw [if_neg hr]
        simp [hat, hkind]
      · simp [kind_at, hn, hkind]
    · right
      refine ⟨k, t[k], rfl, hk, hn, hkind, hat, ?_⟩
      unfold invalid_inumber
      rw [if_neg hr]
      simp [hat, hkind]

/-- Away from `INODE_TABLE_SIZE`, `dir_add_entry` returns `FAIL` and leaves
the table as it was when the parent is outside the table or free, when the
parent is a file, when the child is outside the table or free, when the
name is empty, and when the block of the parent directory has no free
entry. -/
theorem dir_add_entry_fails (c : Consts) (t : Table) (p s : Int) (name : List Char)
    (hlen : t.length = c.INODE_TABLE_SIZE)
    (hp : p ≠ (c.INODE_TABLE_SIZE : Int)) (hs : s ≠ (c.INODE_TABLE_SIZE : Int))
    (h : (p < 0 ∨ (c.INODE_TABLE_SIZE : Int) ≤ p ∨ kind_at t p.toNat = some type.T_NONE) ∨
      kind_at t p.toNat = some type.T_FILE ∨
      (s < 0 ∨ (c.INODE_TABLE_SIZE : Int) ≤ s ∨ kind_at t s.toNat = some type.T_NONE) ∨
      name = [] ∨
      (c.MAX_DIR_ENTRIES ≤ (entries_of c t p).length ∧
        ∀ e ∈ entries_of c t p, e.inumber ≠ c.FREE_INODE)) :
    dir_add_entry c t p s name = some (c.FAIL, t) := by
  rcases invalid_inumber_cases c t 0 p hlen hp (by omega) with
    ⟨hinv, _⟩ | ⟨k, n, rfl, hk, hn, hkind, hat, hinv⟩
  · simp [dir_add_entry, hinv]
  · have hkk : kind_at t k = some n.nodeType := by simp [kind_at, hn]
    by_cases hdir : n.nodeType = type.T_DIRECTORY
    · rcases invalid_inumber_cases c t 0 s hlen hs (by omega) with
        ⟨hinvs, _⟩ | ⟨k', n', rfl, hk', hn', hkind', hat', hinvs⟩
      · simp [dir_add_entry, hinv, hat, hdir, hinvs]
      · have hkk' : kind_at t k' = some n'.nodeType := by simp [kind_at, hn']
        by_cases hname : name.length = 0
        · simp [dir_add_entry, hinv, hat, hdir, hinvs, hname]
        · have hfull : c.MAX_DIR_ENTRIES ≤ (entries_of c t (k : Int)).length ∧
              ∀ e ∈ entries_of c t (k : Int), e.inumber ≠ c.FREE_INODE := by
            rcases h with h | h | h | h | h
            · simp only [Int.toNat_ofNat, hkk, Option.some.injEq] at h
              rcases h with h | h | h
              · omega
              · omega
              · exact absurd h hkind
            · simp only [Int.toNat_ofNat, hkk, Option.some.injEq, hdir] at h
              exact absurd h (by decide)
            · simp only [Int.toNat_ofNat, hkk', Option.some.injEq] at h
              rcases h with h | h | h
              · omega
              · omega
              · exact absurd h hkind'
            · exact absurd (by rw [h]; rfl) hname
            · exact h
          cases hdata : n.data with
          | null =>
            have hM : c.MAX_DIR_ENTRIES = 0 := by
              simpa [entries_of, hat, hdata] using hfull.1
            simp [dir_add_entry, hinv, hat, hdir, hinvs, hname, hdata, hM, dir_add_loop]
          | freed =>
            have hM : c.MAX_DIR_ENTRIES = 0 := by
              simpa [entries_of, hat, hdata] using hfull.1
            simp [dir_add_entry, hinv, hat, hdir, hinvs, hname, hdata, hM, dir_add_loop]
          | block es =>
            have hent : entries_of c t (k : Int) = es := by simp [entries_of, hat, hdata]
            rw [hent] at hfull
            have hscan := dir_add_loop_absent c es (k' : Int) name
              c.MAX_DIR_ENTRIES 0 (fun j _ hj =>
                ⟨es[j], List.getElem?_eq_getElem (by omega),
                  hfull.2 _ (List.getElem_mem _)⟩)
            simp [dir_add_entry, hinv, hat, hdir, hinvs, hname, hdata, hscan]
    · simp [dir_add_entry, hinv, hat, hdir]

/-- Away from `INODE_TABLE_SIZE` and from the inumbers between `FREE_INODE`
and `0`, `dir_reset_entry` returns `FAIL` and leaves the table as it was when
the parent is outside the table or free, when the parent is a file, when the
child is below `FREE_INODE`, outside the table or free, and when no entry of
the block of the parent directory holds the child. -/
theorem dir_reset_entry_fails (c : Consts) (t : Table) (p s : Int)
    (hlen : t.length = c.INODE_TABLE_SIZE)
    (hp : p ≠ (c.INODE_TABLE_SIZE : Int)) (hs : s ≠ (c.INODE_TABLE_SIZE : Int))
    (hs0 : s < c.FREE_INODE ∨ 0 ≤ s)
    (h : (p < 0 ∨ (c.INODE_TABLE_SIZE : Int) ≤ p ∨ kind_at t p.toNat = some type.T_NONE) ∨
      kind_at t p.toNat = some type.T_FILE ∨
      (s < c.FREE_INODE ∨ (c.INODE_TABLE_SIZE : Int) ≤ s ∨
        kind_at t s.toNat = some type.T_NONE) ∨
      (c.MAX_DIR_ENTRIES ≤ (entries_of c t p).length ∧
        ∀ e ∈ entries_of c t p, e.inumber ≠ s)) :
    dir_reset_entry c t p s = some (c.FAIL, t) := by
  rcases invalid_inumber_cases c t 0 p hlen hp (by omega) with
    ⟨hinv, _⟩ | ⟨k, n, rfl, hk, hn, hkind, hat, hinv⟩
  · simp [dir_reset_entry, hinv]
  · have hkk : kind_at t k = some n.nodeType := by simp [kind_at, hn]
    by_cases hdir : n.nodeType = type.T_DIRECTORY
    · rcases invalid_inumber_cases c t c.FREE_INODE s hlen hs hs0 with
        ⟨hinvs, _⟩ | ⟨k', n', rfl, hk', hn', hkind', hat', hinvs⟩
      · simp [dir_reset_entry, hinv, hat, hdir, hinvs]
      · have hkk' : kind_at t k' = some n'.nodeType := by simp [kind_at, hn']
        have hinv' := invalid_inumber_false c t c.FREE_INODE (k' : Int) hinvs
        have hnone : c.MAX_DIR_ENTRIES ≤ (entries_of c t (k : Int)).length ∧
            ∀ e ∈ entries_of c t (k : Int), e.inumber ≠ (k' : Int) := by
          rcases h with h | h | h | h
          · simp only [Int.toNat_ofNat, hkk, Option.some.injEq] at h
            rcases h with h | h | h
            · omega
            · omega
            · exact absurd h hkind
          · simp only [Int.toNat_ofNat, hkk, Option.some.injEq, hdir] at h
            exact absurd h (by decide)
          · simp only [Int.toNat_ofNat, hkk', Option.some.injEq] at h
            rcases h with h | h | h
            · omega
            · omega
            · exact absurd h hkind'
          · exact h
        cases hdata : n.data with
        | null =>
          have hM : c.MAX_DIR_ENTRIES = 0 := by
            simpa [entries_of, hat, hdata] using hnone.1
          simp [dir_reset_entry, hinv, hat, hdir, hinvs, hdata, hM, dir_reset_loop]
        | freed =>
          have hM : c.MAX_DIR_ENTRIES = 0 := by
            simpa [entries_of, hat, hdata] using hnone.1
          simp [dir_reset_entry, hinv, hat, hdir, hinvs, hdata, hM, dir_reset_loop]
        | block es =>
          have hent : entries_of c t (k : Int) = es := by simp [entries_of, hat, hdata]
          rw [hent] at hnone
          have hscan := entries_scan_absent es (k' : Int) ⟨[], c.FREE_INODE⟩
            c.MAX_DIR_ENTRIES 0 (fun j _ hj =>
              ⟨es[j], List.getElem?_eq_getElem (by omega),
                hnone.2 _ (List.getElem_mem _)⟩)
          simp [dir_reset_entry, hinv, hat, hdir, hinvs, hdata,
            dir_reset_loop_eq_scan, hscan]
    · simp [dir_reset_entry, hinv, hat, hdir]

/-- With a taken directory as parent, `dir_reset_entry` on an inumber from
`FREE_INODE` up to `-1` passes the test `sub_inumber < FREE_INODE` and reads
`inode_table` at a negative index. -/
theorem dir_reset_entry_negative_child (c : Consts) (t : Table) (p : Nat) (n : inode_t)
    (s : Int) (hp : p < c.INODE_TABLE_SIZE) (hn : t[p]? = some n)
    (hdir : n.nodeType = type.T_DIRECTORY) (hs1 : c.FREE_INODE ≤ s) (hs2 : s < 0) :
    dir_reset_entry c t (p : Int) s = none := by
  have hdirk : n.nodeType ≠ type.T_NONE := by rw [hdir]; decide
  obtain ⟨hat, hinv⟩ := invalid_inumber_taken c t 0 p n (by omega) hp hn hdirk
  have hr : ¬ (s < c.FREE_INODE ∨ s > (c.INODE_TABLE_SIZE : Int)) := by omega
  have hinvs : invalid_inumber c t c.FREE_INODE s = none := by
    unfold invalid_inumber
    rw [if_neg hr]
    have : ¬ (0 ≤ s ∧ s < (c.INODE_TABLE_SIZE : Int)) := by omega
    simp [inode_at, this]
  simp [dir_reset_entry, hinv, hat, hdir, hinvs]

/-! ## `inode_print_tree` against the pre-order listing -/

/-- A composed label that fits the buffer is copied whole and gives no
warning. -/
theorem snprintf_path_fits (c : Consts) (name ename : List Char)
    (h : (name ++ '/' :: ename).length < c.MAX_FILE_NAME) :
    (snprintf_path c name ename).2 = name ++ '/' :: ename ∧
      ¬ (snprintf_path c name ename).1 > c.MAX_FILE_NAME := by
  unfold snprintf_path
  refine ⟨List.take_of_length_le (by omega), ?_⟩
  simp only [gt_iff_lt, not_lt]
  omega

/-- The loop over a block whose non-free entries all have a label that fits
and a child on which the recursive call returns the lines `outs e`: it
returns the lines of the children, in the order of the entries. -/
theorem print_entries_lines (c : Consts) (call : Int → List Char → Run (List PrintEvent))
    (es : List DirEntry) (name : List Char) (outs : DirEntry → List (List Char)) :
    ∀ (k i : Nat), i + k ≤ es.length →
      (∀ e ∈ live_entries c ((es.drop i).take k),
        (name ++ '/' :: e.name).length < c.MAX_FILE_NAME ∧
        call e.inumber (name ++ '/' :: e.name) = Run.done ((outs e).map PrintEvent.line)) →
      print_entries c call (Data.block es) name k i
        = Run.done (((live_entries c ((es.drop i).take k)).flatMap outs).map
            PrintEvent.line) := by
  intro k
  induction k with
  | zero =>
    intro i _ _
    simp [print_entries, live_entries]
  | succ k ih =>
    intro i hik hall
    have hi : i < es.length := by omega
    have hdrop : (es.drop i).take (k + 1) = es[i] :: (es.drop (i + 1)).take k := by
      rw [List.drop_eq_getElem_cons hi, List.take_succ_cons]
    have hentry : entry_at (Data.block es) i = some (es, es[i]) := by
      simp [entry_at, List.getElem?_eq_getElem hi]
    rw [hdrop] at hall ⊢
    unfold print_entries
    rw [hentry]
    by_cases hfree : (es[i]).inumber = c.FREE_INODE
    · have hlive : live_entries c (es[i] :: (es.drop (i + 1)).take k)
          = live_entries c ((es.drop (i + 1)).take k) := by
        simp [live_entries, hfree]
      rw [hlive] at hall ⊢
      simp only [hfree, ne_eq, not_true_eq_false, if_false]
      exact ih (i + 1) (by omega) hall
    · have hlive : live_entries c (es[i] :: (es.drop (i + 1)).take k)
          = es[i] :: live_entries c ((es.drop (i + 1)).take k) := by
        simp [live_entries, hfree]
      rw [hlive] at hall ⊢
      obtain ⟨hfit, hcall⟩ := hall es[i] (List.mem_cons_self _ _)
      obtain ⟨hpath, hwarn⟩ := snprintf_path_fits c name (es[i]).name hfit
      have hrest := ih (i + 1) (by omega) (fun e he => hall e (List.mem_cons_of_mem _ he))
      simp only [hfree, ne_eq, not_false_eq_true, if_true, hpath, hcall, hrest, hwarn,
        if_false, List.nil_append, List.flatMap_cons, List.map_append]

/-- On a tree of height at most `h` whose labels fit, `inode_print_tree`
returns with every bound `fuel` on the depth of the calls that is at least
`h`, and writes the lines of the pre-order listing and no warning. -/
theorem inode_print_tree_events_listing (c : Consts) (t : Table) :
    ∀ (h fuel : Nat) (inumber : Int) (label : List Char),
      tree_fits c t h inumber label = true → h ≤ fuel →
      inode_print_tree_events c t fuel inumber label
        = Run.done ((listing c t h inumber label).map PrintEvent.line) := by
  intro h
  induction h with
  | zero =>
    intro fuel inumber label hfit _
    simp [tree_fits] at hfit
  | succ h ih =>
    intro fuel inumber label hfit hfuel
    obtain ⟨fuel', rfl⟩ : ∃ f, fuel = f + 1 := ⟨fuel - 1, by omega⟩
    unfold tree_fits at hfit
    unfold inode_print_tree_events listing
    cases hat : inode_at c t inumber with
    | none => simp [hat] at hfit
    | some n =>
      simp only [hat] at hfit ⊢
      cases hk : n.nodeType with
      | T_FILE => simp
      | T_NONE => simp [hk] at hfit
      | T_DIRECTORY =>
        simp only [hk] at hfit
        cases hd : n.data with
        | null => simp [hd] at hfit
        | freed => simp [hd] at hfit
        | block es =>
          simp only [hd, Bool.and_eq_true, decide_eq_true_eq, List.all_eq_true] at hfit
          obtain ⟨hlen, hall⟩ := hfit
          have hent : entries_of c t inumber = es := by simp [entries_of, hat, hd]
          have hloop := print_entries_lines c (inode_print_tree_events c t fuel') es label
            (fun e => listing c t h e.inumber (label ++ '/' :: e.name))
            c.MAX_DIR_ENTRIES 0 (by omega) (by
              intro e he
              rw [List.drop_zero] at he
              obtain ⟨h1, h2⟩ := hall e he
              exact ⟨h1, ih fuel' e.inumber _ h2 (by omega)⟩)
          rw [List.drop_zero] at hloop
          simp [hloop, hent]

/-! ## `inode_lock` and the locks of the table operations -/

/-- Away from `INODE_TABLE_SIZE`, `inode_lock` returns `FAIL` without a call
on a lock, in every mode, on every inumber outside the table and on every
free slot. -/
theorem inode_lock_fails (c : Consts) (t : Table) (rc i : Int) (flag : List Char)
    (hi : i ≠ (c.INODE_TABLE_SIZE : Int))
    (h : i < 0 ∨ (c.INODE_TABLE_SIZE : Int) ≤ i ∨ kind_at t i.toNat = some type.T_NONE) :
    inode_lock c t rc i flag = some (LockResult.returned c.FAIL []) := by
  simp [inode_lock, invalid_inumber_rejects c t i hi h]

/-- On a taken slot inside the table, `inode_lock` in one of its four modes
returns `1` or the value of the non-blocking pthread call: a value other
than `FAIL`, when `FAIL` is negative and the pthread value is not. -/
theorem inode_lock_taken (c : Consts) (t : Table) (rc : Int) (i : Nat) (n : inode_t)
    (flag : List Char) (hFAIL : c.FAIL < 0) (hrc : 0 ≤ rc)
    (hi : i < c.INODE_TABLE_SIZE) (hn : t[i]? = some n) (hk : n.nodeType ≠ type.T_NONE)
    (hflag : flag = ['w'] ∨ flag = ['r'] ∨ flag = ['m', 'w'] ∨ flag = ['m', 'r']) :
    ∃ v ev, inode_lock c t rc (i : Int) flag = some (LockResult.returned v [ev]) ∧
      v ≠ c.FAIL := by
  obtain ⟨_, hinv⟩ := invalid_inumber_taken c t 0 i n (by omega) hi hn hk
  rcases hflag with h | h | h | h <;> subst h
  · exact ⟨1, StateLockEvent.node_wrlock i, by simp [inode_lock, hinv], by omega⟩
  · exact ⟨1, StateLockEvent.node_rdlock i, by simp [inode_lock, hinv], by omega⟩
  · exact ⟨rc, StateLockEvent.node_trywrlock i, by simp [inode_lock, hinv], by omega⟩
  · exact ⟨rc, StateLockEvent.node_tryrdlock i, by simp [inode_lock, hinv], by omega⟩

/-- The lock calls of `inode_create` along its loop: one release, whenever
the loop stays inside the table. -/
theorem inode_create_loop_locks_eq (t : Table) (k i : Nat) (h : i + k ≤ t.length) :
    inode_create_loop_locks t k i = some [StateLockEvent.create_unlock] := by
  induction k generalizing i with
  | zero => rfl
  | succ k ih =>
    have hi : t[i]? = some t[i] := List.getElem?_eq_getElem (by omega)
    unfold inode_create_loop_locks
    rw [hi]
    by_cases hn : (t[i]).nodeType = type.T_NONE
    · simp [hn]
    · simp only [hn, if_false]
      exact ih (i + 1) (by omega)

/-- Under the strategy `mutex` the lock `commandLock` acquires is one that
`initLock` constructed. -/
theorem commandLock_mutex_constructed :
    Sync.acquired (Sync.commandLock (Sync.initLock Sync.mutex).1).events = [Sync.SyncLock.mutex] ∧
    Sync.constructed (Sync.initLock Sync.mutex).2 = [Sync.SyncLock.mutex] := by
  decide

/-- When the composed label, of `MAX_FILE_NAME` characters or more, does not
fit the buffer, `snprintf` cuts it: the label passed to the recursive call
differs from the composed label exactly when its length is at least
`MAX_FILE_NAME`, and the warning is written exactly when its length is
greater than `MAX_FILE_NAME`. -/
theorem snprintf_path_cut_iff (c : Consts) (name ename : List Char)
    (hpos : 0 < c.MAX_FILE_NAME) :
    ((snprintf_path c name ename).2 ≠ name ++ '/' :: ename ↔
      c.MAX_FILE_NAME ≤ (name ++ '/' :: ename).length) ∧
    ((snprintf_path c name ename).1 > c.MAX_FILE_NAME ↔
      c.MAX_FILE_NAME < (name ++ '/' :: ename).length) := by
  unfold snprintf_path
  refine ⟨?_, Iff.rfl⟩
  simp only [ne_eq, List.take_eq_self_iff]
  omega

/-! ## The invariant on directory entries along the operations -/

/-- A taken inumber stays taken when a slot is overwritten, if the slot is
another one or its new kind is not `T_NONE`. -/
theorem taken_set (c : Consts) (t : Table) (m : Nat) (x : inode_t) (i : Int)
    (h : taken c t i = true) (hx : i.toNat ≠ m ∨ x.nodeType ≠ type.T_NONE) :
    taken c (t.set m x) i = true := by
  unfold taken inode_at at h ⊢
  by_cases hr : 0 ≤ i ∧ i < (c.INODE_TABLE_SIZE : Int)
  · rw [if_pos hr] at h ⊢
    by_cases hm : m = i.toNat
    · subst hm
      cases hn : t[i.toNat]? with
      | none => simp [hn] at h
      | some n =>
        have hlt : i.toNat < t.length := (List.getElem?_eq_some.mp hn).1
        rw [List.getElem?_set_self hlt]
        rcases hx with hx | hx
        · exact absurd rfl hx
        · simp [hx]
    · rw [List.getElem?_set_ne hm]
      exact h
  · rw [if_neg hr] at h
    simp at h

/-- A taken inumber is not negative. -/
theorem taken_nonneg (c : Consts) (t : Table) (i : Int) (h : taken c t i = true) :
    0 ≤ i := by
  unfold taken inode_at at h
  by_cases hr : 0 ≤ i ∧ i < (c.INODE_TABLE_SIZE : Int)
  · exact hr.1
  · rw [if_neg hr] at h
    simp at h

/-- On a slot that is read as `T_NONE`, the inumber is not taken. -/
theorem not_taken_of_none (c : Consts) (t : Table) (m : Nat) (n : inode_t) (i : Int)
    (hm : t[m]? = some n) (hn : n.nodeType = type.T_NONE) (h : taken c t i = true) :
    i.toNat ≠ m := by
  intro him
  unfold taken inode_at at h
  by_cases hr : 0 ≤ i ∧ i < (c.INODE_TABLE_SIZE : Int)
  · rw [if_pos hr, him, hm] at h
    simp [hn] at h
  · rw [if_neg hr] at h
    simp at h

/-- The invariant on an entry sequence carries over to a table in which the
children of the sequence are still taken. -/
theorem entries_inv_mono (c : Consts) (t t' : Table) (es : List DirEntry)
    (h : entries_inv c t es)
    (hmono : ∀ e ∈ live_entries c es, taken c t e.inumber = true →
      taken c t' e.inumber = true) :
    entries_inv c t' es :=
  ⟨h.1, h.2.1, fun e he => hmono e he (h.2.2 e he)⟩

/-- A sequence without non-free entry satisfies the invariant. -/
theorem entries_inv_of_no_live (c : Consts) (t : Table) (es : List DirEntry)
    (h : live_entries c es = []) : entries_inv c t es := by
  unfold entries_inv
  rw [h]
  simp

/-- The invariant on a table in which one slot is overwritten. -/
theorem table_inv_set (c : Consts) (t : Table) (m : Nat) (x : inode_t)
    (hinv : table_inv c t)
    (hx : entries_inv c (t.set m x) (node_entries x))
    (hmono : ∀ n ∈ t, ∀ e ∈ live_entries c (node_entries n),
      taken c t e.inumber = true → taken c (t.set m x) e.inumber = true) :
    table_inv c (t.set m x) := by
  intro n hn
  rcases List.mem_or_eq_of_mem_set hn with h | h
  · exact entries_inv_mono c t _ _ (hinv n h) (hmono n h)
  · rw [h]
    exact hx

theorem live_entries_new_inode (c : Consts) (names : Nat → List Char) (nType : type) :
    live_entries c (node_entries (new_inode c names nType)) = [] := by
  unfold new_inode
  split
  · rename_i hdir
    simp [node_entries, hdir, live_entries, List.filter_eq_nil_iff]
  · rename_i hdir
    cases nType <;> simp [node_entries] at hdir ⊢ <;> rfl

/-- Resetting an entry removes at most that entry from the non-free
entries. -/
theorem live_entries_set_free_sublist (c : Consts) (es : List DirEntry) (m : Nat)
    (nm : List Char) :
    (live_entries c (es.set m ⟨nm, c.FREE_INODE⟩)).Sublist (live_entries c es) := by
  induction es generalizing m with
  | nil => simp [live_entries]
  | cons x xs ih =>
    cases m with
    | zero =>
      simp only [live_entries, List.set_cons_zero, List.filter_cons, ne_eq, not_true_eq_false,
        decide_False, Bool.false_eq_true, if_false]
      split
      · exact List.sublist_cons_self _ _
      · exact List.Sublist.refl _
    | succ m =>
      have := ih m
      simp only [live_entries] at this ⊢
      simp only [List.set_cons_succ, List.filter_cons]
      split
      · exact this.cons₂ _
      · exact this

/-- Writing a non-free entry over a free one adds that entry to the non-free
entries. -/
theorem live_entries_set_live_perm (c : Consts) (es : List DirEntry) (m : Nat)
    (e x : DirEntry) (hme : es[m]? = some e) (he : e.inumber = c.FREE_INODE)
    (hx : x.inumber ≠ c.FREE_INODE) :
    (live_entries c (es.set m x)).Perm (x :: live_entries c es) := by
  induction es generalizing m with
  | nil => simp at hme
  | cons y ys ih =>
    cases m with
    | zero =>
      simp only [List.getElem?_cons_zero, Option.some.injEq] at hme
      subst hme
      simp [live_entries, he, hx]
    | succ m =>
      simp only [List.getElem?_cons_succ] at hme
      have := ih m hme
      simp only [live_entries] at this ⊢
      simp only [List.set_cons_succ, List.filter_cons]
      split
      · exact (this.cons y).trans (List.Perm.swap x y _)
      · exact this

/-- Every defined result of `inode_create` is `FAIL` with the table as it
was, or a slot that was read as `T_NONE` and is overwritten by the new
node. -/
theorem inode_create_loop_inv_set (c : Consts) (names : Nat → List Char) (t : Table)
    (nType : type) (k i : Nat) (r : Int) (t' : Table)
    (h : inode_create_loop c names t nType k i = some (r, t')) :
    (r = c.FAIL ∧ t' = t) ∨
    ∃ (m : Nat) (n : inode_t), r = (m : Int) ∧ t[m]? = some n ∧
      n.nodeType = type.T_NONE ∧ t' = t.set m (new_inode c names nType) := by
  induction k generalizing i with
  | zero =>
    simp only [inode_create_loop, Option.some.injEq, Prod.mk.injEq] at h
    exact Or.inl ⟨h.1.symm, h.2.symm⟩
  | succ k ih =>
    unfold inode_create_loop at h
    cases hi : t[i]? with
    | none => simp [hi] at h
    | some n =>
      simp only [hi] at h
      by_cases hn : n.nodeType = type.T_NONE
      · simp only [hn, if_true, Option.some.injEq, Prod.mk.injEq] at h
        exact Or.inr ⟨i, n, h.1.symm, hi, hn, h.2.symm⟩
      · simp only [hn, if_false] at h
        exact ih (i + 1) h

/-- Every defined result of `inode_delete` is `FAIL` with the table as it
was, or `SUCCESS` with the slot of the inumber, inside the table, reset to
`T_NONE`. -/
theorem inode_delete_inv_set (c : Consts) (t : Table) (i : Int) (r : Int) (t' : Table)
    (h : inode_delete c t i = some (r, t')) :
    (r = c.FAIL ∧ t' = t) ∨
    (r = c.SUCCESS ∧ ∃ d, 0 ≤ i ∧ t' = t.set i.toNat ⟨type.T_NONE, d⟩) := by
  unfold inode_delete at h
  cases h1 : invalid_inumber c t 0 i with
  | none => simp [h1] at h
  | some b =>
    cases b with
    | true =>
      simp only [h1, Option.some.injEq, Prod.mk.injEq] at h
      exact Or.inl ⟨h.1.symm, h.2.symm⟩
    | false =>
      obtain ⟨_, h0, _, n, hat, _, _⟩ := invalid_inumber_false c t 0 i h1
      simp only [h1, hat] at h
      cases hdata : n.data with
      | null =>
        simp only [hdata, Option.some.injEq, Prod.mk.injEq] at h
        exact Or.inr ⟨h.1.symm, _, h0, h.2.symm⟩
      | block es =>
        simp only [hdata, Option.some.injEq, Prod.mk.injEq] at h
        exact Or.inr ⟨h.1.symm, _, h0, h.2.symm⟩
      | freed => simp [hdata] at h

theorem table_inv_init (c : Consts) : table_inv c (inode_table_init c) := by
  intro n hn
  simp only [inode_table_init, List.mem_replicate] at hn
  rw [hn.2]
  exact entries_inv_of_no_live c _ _ rfl

/-- `inode_create` keeps the invariant. -/
theorem table_inv_create (c : Consts) (t : Table) (hinv : table_inv c t)
    (names : Nat → List Char) (nType : type) (r : Int) (t' : Table)
    (h : inode_create c names t nType = some (r, t')) : table_inv c t' := by
  rcases inode_create_loop_inv_set c names t nType _ 0 r t' h with
    ⟨_, ht⟩ | ⟨m, n, _, hm, hn, ht⟩
  · rw [ht]
    exact hinv
  · rw [ht]
    refine table_inv_set c t m _ hinv
      (entries_inv_of_no_live c _ _ (live_entries_new_inode c names nType)) ?_
    intro n' _ e _ htk
    exact taken_set c t m _ _ htk (Or.inl (not_taken_of_none c t m n _ hm hn htk))

/-- `dir_reset_entry` keeps the invariant. -/
theorem table_inv_reset (c : Consts) (t : Table) (hinv : table_inv c t)
    (p s r : Int) (t' : Table) (h : dir_reset_entry c t p s = some (r, t')) :
    table_inv c t' := by
  rcases dir_reset_entry_inv c t p s r t' h with ⟨_, ht⟩ |
    ⟨_, n, es, m, e, _, _, _, hn, hdir, hdata, _, _, _, _, _, _, _, ht⟩
  · rw [ht]
    exact hinv
  · rw [ht]
    have hes : node_entries n = es := by
      cases n with
      | mk k d =>
        simp only at hdir hdata
        subst hdir hdata
        rfl
    have hold : entries_inv c t es := by
      rw [← hes]
      exact hinv n (List.getElem?_mem hn)
    have hmono : ∀ i, taken c t i = true → taken c (t.set p.toNat
        ⟨n.nodeType, Data.block (es.set m ⟨[], c.FREE_INODE⟩)⟩) i = true := by
      intro i hi
      exact taken_set c t _ _ i hi (Or.inr (by simp [hdir]))
    refine table_inv_set c t _ _ hinv ?_ (fun n' _ e' _ htk => hmono _ htk)
    have hsub := live_entries_set_free_sublist c es m []
    have hne : node_entries ⟨n.nodeType, Data.block (es.set m ⟨[], c.FREE_INODE⟩)⟩
        = es.set m ⟨[], c.FREE_INODE⟩ := by
      rw [hdir]
      rfl
    rw [hne]
    refine ⟨(hsub.map _).nodup hold.1, (hsub.map _).nodup hold.2.1, ?_⟩
    intro e' he'
    exact hmono _ (hold.2.2 e' (hsub.subset he'))

/-- `dir_add_entry` keeps the invariant when it fails, and when no non-free
entry of the parent holds the name or the child already. -/
theorem table_inv_add (c : Consts) (hFREE : c.FREE_INODE < 0) (hSF : c.SUCCESS ≠ c.FAIL)
    (t : Table) (hinv : table_inv c t) (p s : Int) (name : List Char) (r : Int)
    (t' : Table) (h : dir_add_entry c t p s name = some (r, t'))
    (hnew : r = c.FAIL ∨
      ∀ e ∈ live_entries c (entries_of c t p), e.name ≠ name ∧ e.inumber ≠ s) :
    table_inv c t' := by
  rcases dir_add_entry_inv c t p s name r t' h with ⟨_, ht⟩ |
    ⟨hr, n, es, m, e, _, _, hat, hn, hdir, hdata, hs0, hsN, ⟨ns, hns, hnsk⟩, _, _, hme, hef,
      _, ht⟩
  · rw [ht]
    exact hinv
  · have hnew' : ∀ e ∈ live_entries c es, e.name ≠ name ∧ e.inumber ≠ s := by
      rcases hnew with hf | hn'
      · exact absurd (hr.symm.trans hf) hSF
      · have hent : entries_of c t p = es := by simp [entries_of, hat, hdata]
        rw [hent] at hn'
        exact hn'
    rw [ht]
    have hes : node_entries n = es := by
      cases n with
      | mk k d =>
        simp only at hdir hdata
        subst hdir hdata
        rfl
    have hold : entries_inv c t es := by
      rw [← hes]
      exact hinv n (List.getElem?_mem hn)
    have hmono : ∀ i, taken c t i = true → taken c (t.set p.toNat
        ⟨n.nodeType, Data.block (es.set m ⟨name, s⟩)⟩) i = true := by
      intro i hi
      exact taken_set c t _ _ i hi (Or.inr (by simp [hdir]))
    have hstaken : taken c t s = true := by
      simp [taken, inode_at, hs0, hsN, hns, hnsk]
    refine table_inv_set c t _ _ hinv ?_ (fun n' _ e' _ htk => hmono _ htk)
    have hperm := live_entries_set_live_perm c es m e ⟨name, s⟩ hme hef
      (by simp only; omega)
    have hne : node_entries ⟨n.nodeType, Data.block (es.set m ⟨name, s⟩)⟩
        = es.set m ⟨name, s⟩ := by
      rw [hdir]
      rfl
    rw [hne]
    refine ⟨?_, ?_, ?_⟩
    · rw [(hperm.map DirEntry.name).nodup_iff, List.map_cons, List.nodup_cons]
      refine ⟨?_, hold.1⟩
      intro hmem
      obtain ⟨e', he', hname⟩ := List.mem_map.mp hmem
      exact (hnew' e' he').1 hname
    · rw [(hperm.map DirEntry.inumber).nodup_iff, List.map_cons, List.nodup_cons]
      refine ⟨?_, hold.2.1⟩
      intro hmem
      obtain ⟨e', he', hnum⟩ := List.mem_map.mp hmem
      exact (hnew' e' he').2 hnum
    · intro e' he'
      rcases List.mem_cons.mp (hperm.mem_iff.mp he') with h1 | h1
      · rw [h1]
        exact hmono _ hstaken
      · exact hmono _ (hold.2.2 e' h1)

/-- `inode_delete` keeps the invariant when it fails, and when no non-free
entry of a directory of the table refers to the inumber. -/
theorem table_inv_delete (c : Consts) (hSF : c.SUCCESS ≠ c.FAIL)
    (t : Table) (hinv : table_inv c t) (i r : Int) (t' : Table)
    (h : inode_delete c t i = some (r, t'))
    (hfree : r = c.FAIL ∨
      ∀ n ∈ t, ∀ e ∈ live_entries c (node_entries n), e.inumber ≠ i) :
    table_inv c t' := by
  rcases inode_delete_inv_set c t i r t' h with ⟨_, ht⟩ | ⟨hr, d, h0, ht⟩
  · rw [ht]
    exact hinv
  · have hfree' : ∀ n ∈ t, ∀ e ∈ live_entries c (node_entries n), e.inumber ≠ i := by
      rcases hfree with hf | hf
      · exact absurd (hr.symm.trans hf) hSF
      · exact hf
    rw [ht]
    refine table_inv_set c t _ _ hinv (entries_inv_of_no_live c _ _ rfl) ?_
    intro n hn e he htk
    refine taken_set c t _ _ _ htk (Or.inl ?_)
    have hne := hfree' n hn e he
    have he0 := taken_nonneg c t _ htk
    omega

/-- Two consecutive calls of `inode_create` on a table with two free slots,
the first for a kind other than `T_NONE`: both return an inumber of the
table, and the two inumbers differ. -/
theorem inode_create_twice_distinct (c : Consts) (names1 names2 : Nat → List Char)
    (t : Table) (k1 k2 : type) (hlen : t.length = c.INODE_TABLE_SIZE)
    (hk1 : k1 ≠ type.T_NONE) (a b : Nat) (hab : a ≠ b)
    (ha : a < c.INODE_TABLE_SIZE) (hb : b < c.INODE_TABLE_SIZE)
    (hka : kind_at t a = some type.T_NONE) (hkb : kind_at t b = some type.T_NONE) :
    ∃ (i j : Nat) (t1 t2 : Table), inode_create c names1 t k1 = some ((i : Int), t1) ∧
      inode_create c names2 t1 k2 = some ((j : Int), t2) ∧ i ≠ j ∧
      i < c.INODE_TABLE_SIZE ∧ j < c.INODE_TABLE_SIZE := by
  rcases inode_create_cases c names1 t k1 hlen with ⟨hall, _⟩ | ⟨i, hi, _, _, h1⟩
  · exact absurd hka (hall a ha)
  · have hlen1 : (t.set i (new_inode c names1 k1)).length = c.INODE_TABLE_SIZE := by
      simp [hlen]
    have hki : kind_at (t.set i (new_inode c names1 k1)) i = some k1 := by
      rw [kind_at_set t i i _ (by omega)]
      simp [new_inode_nodeType]
    rcases inode_create_cases c names2 _ k2 hlen1 with ⟨hall, _⟩ | ⟨j, hj, hkj, _, h2⟩
    · exfalso
      by_cases hia : i = a
      · have hib : i ≠ b := by omega
        apply hall b hb
        rw [kind_at_set t i b _ (by omega)]
        simp only [hib, if_false]
        exact hkb
      · apply hall a ha
        rw [kind_at_set t i a _ (by omega)]
        simp only [hia, if_false]
        exact hka
    · refine ⟨i, j, _, _, h1, h2, ?_, hi, hj⟩
      intro hij
      subst hij
      rw [hki] at hkj
      simp only [Option.some.injEq] at hkj
      exact hk1 hkj

/-! ## Claims -/

/-- C1: on every table and for every requested kind, `inode_create` returns
a result; the result is `FAIL` if and only if no slot of the table has kind
`T_NONE`, and otherwise it is the smallest inumber below `INODE_TABLE_SIZE`
whose slot has kind `T_NONE`. -/
theorem inode_create_first_free (c : Consts) (names : Nat → List Char) (t : Table)
    (nType : type) (hlen : t.length = c.INODE_TABLE_SIZE) (hFAIL : c.FAIL < 0) :
    ∃ r t', inode_create c names t nType = some (r, t') ∧
      (r = c.FAIL ↔ ∀ i, i < c.INODE_TABLE_SIZE → kind_at t i ≠ some type.T_NONE) ∧
      (r ≠ c.FAIL → ∃ i : Nat, r = (i : Int) ∧ i < c.INODE_TABLE_SIZE ∧
        kind_at t i = some type.T_NONE ∧ ∀ j, j < i → kind_at t j ≠ some type.T_NONE) := by
  rcases inode_create_cases c names t nType hlen with ⟨hall, hr⟩ | ⟨m, hm, hk, hmin, hr⟩
  · exact ⟨c.FAIL, t, hr, ⟨fun _ => hall, fun _ => rfl⟩, fun h => absurd rfl h⟩
  · have hne : (m : Int) ≠ c.FAIL := by omega
    refine ⟨(m : Int), _, hr, ⟨fun h => absurd h hne, fun hall => absurd hk (hall m hm)⟩, ?_⟩
    intro _
    exact ⟨m, rfl, hm, hk, hmin⟩

/-- Witness of C1: a table of three slots whose first free slot is slot 1. -/
theorem inode_create_first_free_witness :
    ∃ r t', inode_create c0 (fun _ => []) [⟨type.T_FILE, Data.null⟩,
        ⟨type.T_NONE, Data.null⟩, ⟨type.T_NONE, Data.null⟩] type.T_DIRECTORY = some (r, t') ∧
      (r = c0.FAIL ↔ ∀ i, i < c0.INODE_TABLE_SIZE →
        kind_at [⟨type.T_FILE, Data.null⟩, ⟨type.T_NONE, Data.null⟩,
          ⟨type.T_NONE, Data.null⟩] i ≠ some type.T_NONE) ∧
      (r ≠ c0.FAIL → ∃ i : Nat, r = (i : Int) ∧ i < c0.INODE_TABLE_SIZE ∧
        kind_at [⟨type.T_FILE, Data.null⟩, ⟨type.T_NONE, Data.null⟩,
          ⟨type.T_NONE, Data.null⟩] i = some type.T_NONE ∧
        ∀ j, j < i → kind_at [⟨type.T_FILE, Data.null⟩, ⟨type.T_NONE, Data.null⟩,
          ⟨type.T_NONE, Data.null⟩] j ≠ some type.T_NONE) :=
  inode_create_first_free c0 (fun _ => []) _ type.T_DIRECTORY (by decide) (by decide)

/-- C2: whenever `inode_create` returns an inumber `i` (a value other than
`FAIL`), slot `i` had kind `T_NONE` before the call and has the requested
kind after it; for a directory the slot points to a block of
`MAX_DIR_ENTRIES` entries that all hold `FREE_INODE`; and every other slot
of the table is unchanged. -/
theorem inode_create_effect (c : Consts) (names : Nat → List Char) (t : Table)
    (nType : type) (hlen : t.length = c.INODE_TABLE_SIZE) (r : Int) (t' : Table)
    (h : inode_create c names t nType = some (r, t')) (hr : r ≠ c.FAIL) :
    ∃ i : Nat, r = (i : Int) ∧ i < c.INODE_TABLE_SIZE ∧
      kind_at t i = some type.T_NONE ∧
      kind_at t' i = some nType ∧
      (nType = type.T_DIRECTORY →
        ∃ es, (t'[i]?).map inode_t.data = some (Data.block es) ∧
          es.length = c.MAX_DIR_ENTRIES ∧ ∀ e ∈ es, e.inumber = c.FREE_INODE) ∧
      t'.length = t.length ∧
      ∀ j, j ≠ i → t'[j]? = t[j]? := by
  rcases inode_create_cases c names t nType hlen with ⟨_, hr'⟩ | ⟨m, hm, hk, _, hr'⟩
  · rw [hr'] at h
    simp only [Option.some.injEq, Prod.mk.injEq] at h
    exact absurd h.1.symm hr
  · rw [hr'] at h
    simp only [Option.some.injEq, Prod.mk.injEq] at h
    obtain ⟨h1, h2⟩ := h
    subst h1 h2
    refine ⟨m, rfl, hm, hk, ?_, ?_, by simp, ?_⟩
    · rw [kind_at_set t m m _ (by omega)]
      simp [new_inode_nodeType]
    · intro hdir
      refine ⟨(List.range c.MAX_DIR_ENTRIES).map fun i => ⟨names i, c.FREE_INODE⟩, ?_, ?_, ?_⟩
      · rw [List.getElem?_set_self (by omega)]
        simp [new_inode, hdir]
      · simp
      · intro e he
        simp only [List.mem_map] at he
        obtain ⟨_, _, he⟩ := he
        rw [← he]
    · intro j hj
      exact List.getElem?_set_ne (fun h => hj h.symm)

/-- Witness of C2: a directory is created in slot 1 of a table of three. -/
theorem inode_create_effect_witness :
    ∃ i : Nat, (1 : Int) = (i : Int) ∧ i < c0.INODE_TABLE_SIZE ∧
      kind_at [⟨type.T_FILE, Data.null⟩, ⟨type.T_NONE, Data.null⟩,
        ⟨type.T_NONE, Data.null⟩] i = some type.T_NONE ∧
      kind_at [⟨type.T_FILE, Data.null⟩,
        ⟨type.T_DIRECTORY, Data.block [⟨[], -1⟩, ⟨[], -1⟩]⟩,
        ⟨type.T_NONE, Data.null⟩] i = some type.T_DIRECTORY ∧
      (type.T_DIRECTORY = type.T_DIRECTORY →
        ∃ es, (([⟨type.T_FILE, Data.null⟩,
            ⟨type.T_DIRECTORY, Data.block [⟨[], -1⟩, ⟨[], -1⟩]⟩,
            ⟨type.T_NONE, Data.null⟩] : Table)[i]?).map inode_t.data = some (Data.block es) ∧
          es.length = c0.MAX_DIR_ENTRIES ∧ ∀ e ∈ es, e.inumber = c0.FREE_INODE) ∧
      ([⟨type.T_FILE, Data.null⟩, ⟨type.T_DIRECTORY, Data.block [⟨[], -1⟩, ⟨[], -1⟩]⟩,
        ⟨type.T_NONE, Data.null⟩] : Table).length
        = ([⟨type.T_FILE, Data.null⟩, ⟨type.T_NONE, Data.null⟩,
          ⟨type.T_NONE, Data.null⟩] : Table).length ∧
      ∀ j, j ≠ i →
        ([⟨type.T_FILE, Data.null⟩, ⟨type.T_DIRECTORY, Data.block [⟨[], -1⟩, ⟨[], -1⟩]⟩,
          ⟨type.T_NONE, Data.null⟩] : Table)[j]?
        = ([⟨type.T_FILE, Data.null⟩, ⟨type.T_NONE, Data.null⟩,
          ⟨type.T_NONE, Data.null⟩] : Table)[j]? :=
  inode_create_effect c0 (fun _ => []) [⟨type.T_FILE, Data.null⟩, ⟨type.T_NONE, Data.null⟩,
    ⟨type.T_NONE, Data.null⟩] type.T_DIRECTORY (by decide) 1
    [⟨type.T_FILE, Data.null⟩, ⟨type.T_DIRECTORY, Data.block [⟨[], -1⟩, ⟨[], -1⟩]⟩,
      ⟨type.T_NONE, Data.null⟩] (by decide) (by decide)

/-- C3: from the table left by `inode_table_init`, `INODE_TABLE_SIZE`
consecutive calls of `inode_create` for files or directories all return an
inumber, and the inumbers are pairwise distinct; the next call of
`inode_create` returns `FAIL` and leaves the full table `t1` as it was; and
on that table `t1`, for every `j` below `INODE_TABLE_SIZE`, `inode_delete j`
returns `SUCCESS`, and on the table `t2` it leaves the call of
`inode_create` that follows returns `j`. -/
theorem inode_create_fill_then_reuse (c : Consts) (hFAIL : c.FAIL < 0)
    (qs : List (type × (Nat → List Char))) (hlen : qs.length = c.INODE_TABLE_SIZE)
    (hq : ∀ q ∈ qs, q.1 = type.T_FILE ∨ q.1 = type.T_DIRECTORY) :
    ∃ rs tfull, inode_create_seq c (inode_table_init c) qs = some (rs, tfull) ∧
      rs.length = c.INODE_TABLE_SIZE ∧
      (∀ r ∈ rs, r ≠ c.FAIL ∧ 0 ≤ r ∧ r < c.INODE_TABLE_SIZE) ∧
      rs.Nodup ∧
      ∀ nType names, ∃ t1, inode_create c names tfull nType = some (c.FAIL, t1) ∧
        t1 = tfull ∧
        ∀ j : Nat, j < c.INODE_TABLE_SIZE →
          ∃ t2, inode_delete c t1 (j : Int) = some (c.SUCCESS, t2) ∧
            ∀ nType' names', ∃ t3,
              inode_create c names' t2 nType' = some ((j : Int), t3) := by
  obtain ⟨tfull, hseq, hfl, hlo, _, hd⟩ :=
    inode_create_seq_fill c qs hq 0 (inode_table_init c) (filled_upto_init c) (by omega)
  refine ⟨_, tfull, hseq, by simp [hlen], ?_, ?_, fun nType names =>
    ⟨tfull, inode_create_full c names tfull nType hfl hlo, rfl, ?_⟩⟩
  · intro r hr
    simp only [List.mem_map, List.mem_range'_1] at hr
    obtain ⟨i, ⟨_, hi⟩, hri⟩ := hr
    subst hri
    simp only [Int.ofNat_eq_coe]
    omega
  · exact (List.nodup_range' 0 qs.length).map Int.ofNat_injective
  · intro j hj
    obtain ⟨n, hn, hk⟩ := kind_at_not_none tfull j (by omega) (hlo j hj)
    obtain ⟨d, hdel⟩ := inode_delete_taken c tfull j n hj hn hk
      (hd n (List.getElem?_mem hn))
    refine ⟨_, hdel, ?_⟩
    intro nType names
    refine ⟨_, inode_create_at_first_free c names _ nType j (by simp [hfl]) hj ?_ ?_⟩
    · rw [kind_at_set tfull j j _ (by omega)]
      simp
    · intro i hi
      rw [kind_at_set tfull j i _ (by omega)]
      have hji : j ≠ i := by omega
      simp only [hji, if_false]
      exact hlo i (by omega)

/-- Witness of C3: a table of three slots, filled by a file, a directory
and a file. -/
theorem inode_create_fill_then_reuse_witness :
    c0.FAIL < 0 ∧
    ([(type.T_FILE, fun _ => []), (type.T_DIRECTORY, fun _ => []),
      (type.T_FILE, fun _ => [])] : List (type × (Nat → List Char))).length
        = c0.INODE_TABLE_SIZE ∧
    ∃ rs tfull, inode_create_seq c0 (inode_table_init c0)
        [(type.T_FILE, fun _ => []), (type.T_DIRECTORY, fun _ => []),
          (type.T_FILE, fun _ => [])] = some (rs, tfull) ∧
      rs.length = c0.INODE_TABLE_SIZE ∧
      (∀ r ∈ rs, r ≠ c0.FAIL ∧ 0 ≤ r ∧ r < c0.INODE_TABLE_SIZE) ∧
      rs.Nodup ∧
      ∀ nType names, ∃ t1, inode_create c0 names tfull nType = some (c0.FAIL, t1) ∧
        t1 = tfull ∧
        ∀ j : Nat, j < c0.INODE_TABLE_SIZE →
          ∃ t2, inode_delete c0 t1 (j : Int) = some (c0.SUCCESS, t2) ∧
            ∀ nType' names', ∃ t3,
              inode_create c0 names' t2 nType' = some ((j : Int), t3) :=
  ⟨by decide, by decide,
    inode_create_fill_then_reuse c0 (by decide) _ (by decide) (by simp)⟩

/-- C4: at the inumber `INODE_TABLE_SIZE`, which lies outside the table,
`inode_delete` does not return `FAIL`: the guard compares with
`inumber > INODE_TABLE_SIZE`, lets the inumber through and reads
`inode_table[INODE_TABLE_SIZE]`, past the end of the array. -/
theorem inode_delete_at_table_size (c : Consts) (t : Table) :
    inode_delete c t (c.INODE_TABLE_SIZE : Int) = none := by
  simp [inode_delete, invalid_inumber_at_table_size c t 0 (by omega)]

/-- C5: with the parent inumber `INODE_TABLE_SIZE`, which lies outside the
table, `dir_add_entry` does not return `FAIL`, whatever the child and the
name (the empty name too): the guard lets the inumber through and reads
`inode_table[INODE_TABLE_SIZE]`, past the end of the array. -/
theorem dir_add_entry_at_table_size (c : Consts) (t : Table) (sub_inumber : Int)
    (sub_name : List Char) :
    dir_add_entry c t (c.INODE_TABLE_SIZE : Int) sub_inumber sub_name = none := by
  simp [dir_add_entry, invalid_inumber_at_table_size c t 0 (by omega)]

/-- C6, as the code has it: when the parent is a taken directory slot with a
free entry, the child is a taken slot and the name is not empty and fits the
name array of an entry (it has fewer than `MAX_FILE_NAME` characters),
`dir_add_entry` returns `SUCCESS` and writes the pair of the child and the
name into the lowest-indexed free entry of the parent; no other entry and no
other slot changes. Nothing is asked of the names already in the directory,
so the call succeeds on a name the directory already holds. -/
theorem dir_add_entry_first_free (c : Consts) (t : Table) (p s : Nat) (name : List Char)
    (np : inode_t) (es : List DirEntry)
    (hp : p < c.INODE_TABLE_SIZE) (hnp : t[p]? = some np)
    (hdir : np.nodeType = type.T_DIRECTORY) (hes : np.data = Data.block es)
    (hfree : ∃ j e, j < c.MAX_DIR_ENTRIES ∧ es[j]? = some e ∧ e.inumber = c.FREE_INODE)
    (hs : s < c.INODE_TABLE_SIZE) (hns : ∃ ns, t[s]? = some ns ∧ ns.nodeType ≠ type.T_NONE)
    (hname : name ≠ []) (hfit : name.length < c.MAX_FILE_NAME) :
    ∃ m, m < c.MAX_DIR_ENTRIES ∧
      (∃ e, es[m]? = some e ∧ e.inumber = c.FREE_INODE) ∧
      (∀ j e, j < m → es[j]? = some e → e.inumber ≠ c.FREE_INODE) ∧
      dir_add_entry c t (p : Int) (s : Int) name
        = some (c.SUCCESS,
            t.set p ⟨type.T_DIRECTORY, Data.block (es.set m ⟨name, (s : Int)⟩)⟩) := by
  classical
  have hex : ∃ j, j < c.MAX_DIR_ENTRIES ∧ ∃ e, es[j]? = some e ∧ e.inumber = c.FREE_INODE := by
    obtain ⟨j, e, h1, h2, h3⟩ := hfree
    exact ⟨j, h1, e, h2, h3⟩
  obtain ⟨hmM, e, hme, hmf⟩ := Nat.find_spec hex
  have hmlen : Nat.find hex < es.length := by
    rcases List.getElem?_eq_some.mp hme with ⟨hlt, _⟩
    exact hlt
  have hmin : ∀ j e', j < Nat.find hex → es[j]? = some e' → e'.inumber ≠ c.FREE_INODE := by
    intro j e' hj hje hf
    exact Nat.find_min hex hj ⟨by omega, e', hje, hf⟩
  refine ⟨Nat.find hex, hmM, ⟨e, hme, hmf⟩, hmin, ?_⟩
  obtain ⟨ns, hns1, hns2⟩ := hns
  have hdirk : np.nodeType ≠ type.T_NONE := by rw [hdir]; decide
  obtain ⟨hatp, hinvp⟩ := invalid_inumber_taken c t 0 p np (by omega) hp hnp hdirk
  obtain ⟨_, hinvs⟩ := invalid_inumber_taken c t 0 s ns (by omega) hs hns1 hns2
  have hlen : name.length ≠ 0 := by
    intro h0
    exact hname (List.length_eq_zero.mp h0)
  have hscan := entries_scan_found es c.FREE_INODE ⟨name, (s : Int)⟩ c.MAX_DIR_ENTRIES 0
    (Nat.find hex) e (Nat.zero_le _) (by omega) hme hmf
    (fun j _ hj => ⟨es[j], List.getElem?_eq_getElem (by omega),
      hmin j _ hj (List.getElem?_eq_getElem (by omega))⟩)
  simp [dir_add_entry, hinvp, hatp, hdir, hinvs, hlen, hes,
    dir_add_loop_eq_scan c es (s : Int) name c.MAX_DIR_ENTRIES 0 hfit, hscan]

/-- Witness of C6 as amended: the name `a` is added a second time to a
directory that already holds an entry of that name. -/
theorem dir_add_entry_first_free_witness :
    ∃ m, m < c0.MAX_DIR_ENTRIES ∧
      (∃ e, ([⟨['a'], 1⟩, ⟨[], -1⟩] : List DirEntry)[m]? = some e ∧
        e.inumber = c0.FREE_INODE) ∧
      (∀ j e, j < m → ([⟨['a'], 1⟩, ⟨[], -1⟩] : List DirEntry)[j]? = some e →
        e.inumber ≠ c0.FREE_INODE) ∧
      dir_add_entry c0 [⟨type.T_DIRECTORY, Data.block [⟨['a'], 1⟩, ⟨[], -1⟩]⟩,
          ⟨type.T_FILE, Data.null⟩, ⟨type.T_FILE, Data.null⟩] ((0 : Nat) : Int)
          ((2 : Nat) : Int) ['a']
        = some (c0.SUCCESS,
            ([⟨type.T_DIRECTORY, Data.block [⟨['a'], 1⟩, ⟨[], -1⟩]⟩,
              ⟨type.T_FILE, Data.null⟩, ⟨type.T_FILE, Data.null⟩] : Table).set 0
              ⟨type.T_DIRECTORY, Data.block
                (([⟨['a'], 1⟩, ⟨[], -1⟩] : List DirEntry).set m ⟨['a'], ((2 : Nat) : Int)⟩)⟩) :=
  dir_add_entry_first_free c0 [⟨type.T_DIRECTORY, Data.block [⟨['a'], 1⟩, ⟨[], -1⟩]⟩,
    ⟨type.T_FILE, Data.null⟩, ⟨type.T_FILE, Data.null⟩] 0 2 ['a']
    ⟨type.T_DIRECTORY, Data.block [⟨['a'], 1⟩, ⟨[], -1⟩]⟩ [⟨['a'], 1⟩, ⟨[], -1⟩]
    (by decide) rfl rfl rfl ⟨1, ⟨[], -1⟩, by decide, rfl, rfl⟩ (by decide)
    ⟨⟨type.T_FILE, Data.null⟩, rfl, by decide⟩ (by decide) (by decide)

/-- Counterexample to C6 as stated: in `dir_a_files` the parent 0 is a
directory with a free entry and the child 2 is a file; the name `abcdefgh`
is not empty and has `MAX_FILE_NAME` characters, one more than the name
array of an entry holds with its terminator: `dir_add_entry` writes past the
array and does not return `SUCCESS` with the pair stored. -/
theorem dir_add_entry_name_overflow :
    kind_at dir_a_files 0 = some type.T_DIRECTORY ∧
    entries_of c0 dir_a_files 0 = [⟨['a'], 1⟩, ⟨[], -1⟩] ∧
    kind_at dir_a_files 2 = some type.T_FILE ∧
    (['a', 'b', 'c', 'd', 'e', 'f', 'g', 'h'] : List Char) ≠ [] ∧
    (['a', 'b', 'c', 'd', 'e', 'f', 'g', 'h'] : List Char).length = c0.MAX_FILE_NAME ∧
    dir_add_entry c0 dir_a_files 0 2 ['a', 'b', 'c', 'd', 'e', 'f', 'g', 'h'] = none := by
  decide

/-- C7, as the code has it: when `dir_add_entry` succeeds on a name that
fits the name array of an entry (fewer than `MAX_FILE_NAME` characters), and
no entry below the one it fills already holds the child (every entry of the
parent that holds the child comes after a free entry), the call of
`dir_reset_entry` on the same parent and child that follows succeeds, and
the non-free entries of the parent after it are those before the
`dir_add_entry`, in the same order: same count and same members. -/
theorem dir_add_then_reset_restores (c : Consts) (hFREE : c.FREE_INODE < 0)
    (hSF : c.SUCCESS ≠ c.FAIL) (t t1 : Table) (p s : Int) (name : List Char)
    (_hfit : name.length < c.MAX_FILE_NAME)
    (hadd : dir_add_entry c t p s name = some (c.SUCCESS, t1))
    (hfirst : ∀ (j : Nat) (e : DirEntry), (entries_of c t p)[j]? = some e → e.inumber = s →
      ∃ (i : Nat) (e' : DirEntry),
        i < j ∧ (entries_of c t p)[i]? = some e' ∧ e'.inumber = c.FREE_INODE) :
    ∃ t2, dir_reset_entry c t1 p s = some (c.SUCCESS, t2) ∧
      live_entries c (entries_of c t2 p) = live_entries c (entries_of c t p) := by
  rcases dir_add_entry_inv c t p s name _ _ hadd with h1 | ⟨_, n, es, m, e, hp0, hpN, hat,
    hn, hdir, hdata, hs0, hsN, ⟨ns, hns, hnsk⟩, _, hmM, hme, hef, hmin, ht1⟩
  · exact absurd h1.1 hSF
  · obtain ⟨P, rfl⟩ := Int.eq_ofNat_of_zero_le hp0
    obtain ⟨S, rfl⟩ := Int.eq_ofNat_of_zero_le hs0
    simp only [Int.toNat_ofNat] at hn hns ht1
    have hPlen : P < t.length := (List.getElem?_eq_some.mp hn).1
    have hmlen : m < es.length := (List.getElem?_eq_some.mp hme).1
    have hent : entries_of c t (P : Int) = es := by
      simp [entries_of, hat, hdata]
    rw [hent] at hfirst
    have hP : P < c.INODE_TABLE_SIZE := by omega
    have hS : S < c.INODE_TABLE_SIZE := by omega
    have hns1 : ∃ ns', t1[S]? = some ns' ∧ ns'.nodeType ≠ type.T_NONE := by
      rw [ht1]
      by_cases hPS : P = S
      · subst hPS
        rw [List.getElem?_set_self hPlen]
        exact ⟨_, rfl, by simp [hdir]⟩
      · rw [List.getElem?_set_ne hPS]
        exact ⟨ns, hns, hnsk⟩
    have hnp1 : t1[P]? = some ⟨n.nodeType, Data.block (es.set m ⟨name, (S : Int)⟩)⟩ := by
      rw [ht1, List.getElem?_set_self hPlen]
    have hmin1 : ∀ j, j < m →
        ∃ e', (es.set m ⟨name, (S : Int)⟩)[j]? = some e' ∧ e'.inumber ≠ (S : Int) := by
      intro j hj
      obtain ⟨e', hje, hjf⟩ := hmin j hj
      refine ⟨e', ?_, ?_⟩
      · rw [List.getElem?_set_ne (by omega)]
        exact hje
      · intro heq
        obtain ⟨i, e2, hij, hie, hif⟩ := hfirst j e' hje heq
        obtain ⟨e3, hie3, hif3⟩ := hmin i (by omega)
        rw [hie] at hie3
        simp only [Option.some.injEq] at hie3
        subst hie3
        exact hif3 hif
    have hreset := dir_reset_entry_first_match c t1 P S m _ (es.set m ⟨name, (S : Int)⟩)
      ⟨name, (S : Int)⟩ (by omega) hP hnp1 hdir rfl hS hns1 hmM
      (List.getElem?_set_self hmlen) rfl hmin1
    refine ⟨_, hreset, ?_⟩
    rw [entries_of_set c t1 P _ _ hP (by rw [ht1]; simpa using hPlen), hent, List.set_set]
    exact live_entries_set_free c es m e [] hme hef

/-- Witness of C7 as amended: the child 2 is added to a directory whose only
entry holds the child 1, and removed again. -/
theorem dir_add_then_reset_restores_witness :
    dir_add_entry c0 [⟨type.T_DIRECTORY, Data.block [⟨['a'], 1⟩, ⟨[], -1⟩]⟩,
        ⟨type.T_FILE, Data.null⟩, ⟨type.T_FILE, Data.null⟩] 0 2 ['b']
      = some (c0.SUCCESS, [⟨type.T_DIRECTORY, Data.block [⟨['a'], 1⟩, ⟨['b'], 2⟩]⟩,
        ⟨type.T_FILE, Data.null⟩, ⟨type.T_FILE, Data.null⟩]) ∧
    ∃ t2, dir_reset_entry c0 [⟨type.T_DIRECTORY, Data.block [⟨['a'], 1⟩, ⟨['b'], 2⟩]⟩,
        ⟨type.T_FILE, Data.null⟩, ⟨type.T_FILE, Data.null⟩] 0 2 = some (c0.SUCCESS, t2) ∧
      live_entries c0 (entries_of c0 t2 0)
        = live_entries c0 (entries_of c0 [⟨type.T_DIRECTORY,
            Data.block [⟨['a'], 1⟩, ⟨[], -1⟩]⟩, ⟨type.T_FILE, Data.null⟩,
            ⟨type.T_FILE, Data.null⟩] 0) :=
  ⟨by decide,
    dir_add_then_reset_restores c0 (by decide) (by decide) _ _ 0 2 ['b'] (by decide)
      (by decide)
      (by
        intro j e hj he
        have hes : entries_of c0 [⟨type.T_DIRECTORY, Data.block [⟨['a'], 1⟩, ⟨[], -1⟩]⟩,
            ⟨type.T_FILE, Data.null⟩, ⟨type.T_FILE, Data.null⟩] 0
            = [⟨['a'], 1⟩, ⟨[], -1⟩] := by decide
        rw [hes] at hj
        match j with
        | 0 =>
          simp only [List.getElem?_cons_zero, Option.some.injEq] at hj
          subst hj
          exact absurd he (by decide)
        | 1 =>
          simp only [List.getElem?_cons_succ, List.getElem?_cons_zero,
            Option.some.injEq] at hj
          subst hj
          exact absurd he (by decide)
        | j + 2 => simp at hj)⟩

/-- Counterexample to C7 as stated: the directory in slot 0 holds the child 1
under the name `a`; `dir_add_entry` of the child 1 under the name `b`
succeeds, the `dir_reset_entry` of the child 1 that follows succeeds and
resets the older entry, so the entry named `a` is a member before and not
after, and the entry named `b` after and not before. -/
theorem dir_add_then_reset_changes_entries :
    dir_add_entry c0 [⟨type.T_DIRECTORY, Data.block [⟨['a'], 1⟩, ⟨[], -1⟩]⟩,
        ⟨type.T_FILE, Data.null⟩, ⟨type.T_FILE, Data.null⟩] 0 1 ['b']
      = some (c0.SUCCESS, [⟨type.T_DIRECTORY, Data.block [⟨['a'], 1⟩, ⟨['b'], 1⟩]⟩,
        ⟨type.T_FILE, Data.null⟩, ⟨type.T_FILE, Data.null⟩]) ∧
    dir_reset_entry c0 [⟨type.T_DIRECTORY, Data.block [⟨['a'], 1⟩, ⟨['b'], 1⟩]⟩,
        ⟨type.T_FILE, Data.null⟩, ⟨type.T_FILE, Data.null⟩] 0 1
      = some (c0.SUCCESS, [⟨type.T_DIRECTORY, Data.block [⟨[], -1⟩, ⟨['b'], 1⟩]⟩,
        ⟨type.T_FILE, Data.null⟩, ⟨type.T_FILE, Data.null⟩]) ∧
    live_entries c0 (entries_of c0 [⟨type.T_DIRECTORY,
        Data.block [⟨['a'], 1⟩, ⟨[], -1⟩]⟩, ⟨type.T_FILE, Data.null⟩,
        ⟨type.T_FILE, Data.null⟩] 0) = [⟨['a'], 1⟩] ∧
    live_entries c0 (entries_of c0 [⟨type.T_DIRECTORY,
        Data.block [⟨[], -1⟩, ⟨['b'], 1⟩]⟩, ⟨type.T_FILE, Data.null⟩,
        ⟨type.T_FILE, Data.null⟩] 0) = [⟨['b'], 1⟩] ∧
    c0.SUCCESS ≠ c0.FAIL := by
  decide

/-- C8: with the parent inumber `INODE_TABLE_SIZE`, which lies outside the
table, `dir_reset_entry` does not return `FAIL`: the guard lets the inumber
through and reads `inode_table[INODE_TABLE_SIZE]`, past the end of the
array. -/
theorem dir_reset_entry_at_table_size (c : Consts) (t : Table) (sub_inumber : Int) :
    dir_reset_entry c t (c.INODE_TABLE_SIZE : Int) sub_inumber = none := by
  simp [dir_reset_entry, invalid_inumber_at_table_size c t 0 (by omega)]

/-- C9: a call of `inode_create`, `inode_delete`, `inode_get`,
`dir_add_entry` or `dir_reset_entry` that returns `FAIL` leaves the table,
the kind of every slot and every directory entry, as it was before the
call. -/
theorem fail_leaves_table (c : Consts) (hSF : c.SUCCESS ≠ c.FAIL) (hFAIL : c.FAIL < 0)
    (t t' : Table) :
    (∀ names nType, inode_create c names t nType = some (c.FAIL, t') → t' = t) ∧
    (∀ i, inode_delete c t i = some (c.FAIL, t') → t' = t) ∧
    (∀ i wantType wantData o1 o2,
      inode_get c t i wantType wantData = some (c.FAIL, o1, o2, t') → t' = t) ∧
    (∀ p s name, dir_add_entry c t p s name = some (c.FAIL, t') → t' = t) ∧
    (∀ p s, dir_reset_entry c t p s = some (c.FAIL, t') → t' = t) := by
  refine ⟨?_, ?_, ?_, ?_, ?_⟩
  · intro names nType h
    rcases inode_create_loop_inv c names t nType _ 0 _ _ h with h1 | ⟨m, hm⟩
    · exact h1.2
    · omega
  · intro i h
    rcases inode_delete_inv c t i _ _ h with h1 | h1
    · exact h1.2
    · exact absurd h1.symm hSF
  · intro i wantType wantData o1 o2 h
    exact inode_get_table c t i wantType wantData _ o1 o2 t' h
  · intro p s name h
    rcases dir_add_entry_inv c t p s name _ _ h with h1 | h1
    · exact h1.2
    · exact absurd h1.1.symm hSF
  · intro p s h
    rcases dir_reset_entry_inv c t p s _ _ h with h1 | h1
    · exact h1.2
    · exact absurd h1.1.symm hSF

/-- Witness of C9: on a table whose slot 1 is free, `inode_delete 1` returns
`FAIL`. -/
theorem fail_leaves_table_witness :
    inode_delete c0 [⟨type.T_FILE, Data.null⟩, ⟨type.T_NONE, Data.null⟩,
        ⟨type.T_NONE, Data.null⟩] 1
      = some (c0.FAIL, [⟨type.T_FILE, Data.null⟩, ⟨type.T_NONE, Data.null⟩,
        ⟨type.T_NONE, Data.null⟩]) ∧
    ((∀ names nType, inode_create c0 names [⟨type.T_FILE, Data.null⟩,
        ⟨type.T_NONE, Data.null⟩, ⟨type.T_NONE, Data.null⟩] nType
          = some (c0.FAIL, [⟨type.T_FILE, Data.null⟩, ⟨type.T_NONE, Data.null⟩,
            ⟨type.T_NONE, Data.null⟩]) →
        ([⟨type.T_FILE, Data.null⟩, ⟨type.T_NONE, Data.null⟩,
            ⟨type.T_NONE, Data.null⟩] : Table)
          = [⟨type.T_FILE, Data.null⟩, ⟨type.T_NONE, Data.null⟩,
            ⟨type.T_NONE, Data.null⟩]) ∧
    (∀ i, inode_delete c0 [⟨type.T_FILE, Data.null⟩, ⟨type.T_NONE, Data.null⟩,
        ⟨type.T_NONE, Data.null⟩] i
          = some (c0.FAIL, [⟨type.T_FILE, Data.null⟩, ⟨type.T_NONE, Data.null⟩,
            ⟨type.T_NONE, Data.null⟩]) →
        ([⟨type.T_FILE, Data.null⟩, ⟨type.T_NONE, Data.null⟩,
            ⟨type.T_NONE, Data.null⟩] : Table)
          = [⟨type.T_FILE, Data.null⟩, ⟨type.T_NONE, Data.null⟩,
            ⟨type.T_NONE, Data.null⟩])) :=
  ⟨by decide,
    (fail_leaves_table c0 (by decide) (by decide) _ _).1,
    (fail_leaves_table c0 (by decide) (by decide) _ _).2.1⟩

/-- C10: at the inumber `INODE_TABLE_SIZE`, which is greater than or equal
to `INODE_TABLE_SIZE`, `inode_get` does not return `FAIL`, whatever outputs
are asked for: the guard lets the inumber through and reads
`inode_table[INODE_TABLE_SIZE]`, past the end of the array. -/
theorem inode_get_at_table_size (c : Consts) (t : Table) (wantType wantData : Bool) :
    inode_get c t (c.INODE_TABLE_SIZE : Int) wantType wantData = none := by
  simp [inode_get, invalid_inumber_at_table_size c t 0 (by omega)]

/-- C11: on a table in which the directory entries below `inumber` form a
tree of height at most `h` of taken nodes, and in which every composed label
fits the buffer of `MAX_FILE_NAME` bytes, `inode_print_tree` returns (with
every bound on the depth of the calls that is at least `h`), leaves the table
as it was, and writes exactly the lines of the pre-order listing: the label
for a file; for a directory the label followed, for each non-free entry in
increasing slot order, by the listing of the child under the label of the
directory, `/` and the name of the entry. -/
theorem inode_print_tree_preorder (c : Consts) (t : Table) (h : Nat) (inumber : Int)
    (label : List Char) (hfit : tree_fits c t h inumber label = true)
    (fuel : Nat) (hfuel : h ≤ fuel) :
    inode_print_tree c t fuel inumber label
      = Run.done ((listing c t h inumber label).map PrintEvent.line, t) := by
  unfold inode_print_tree
  rw [inode_print_tree_events_listing c t h fuel inumber label hfit hfuel]

/-- Witness of C11: the tree of the root, the directory `d` and the file `f`,
printed from the root under the label `r`. -/
theorem inode_print_tree_preorder_witness :
    tree_fits c0 tree_d_f 3 0 ['r'] = true ∧
    listing c0 tree_d_f 3 0 ['r'] = [['r'], ['r', '/', 'd'], ['r', '/', 'd', '/', 'f']] ∧
    inode_print_tree c0 tree_d_f 5 0 ['r']
      = Run.done ((listing c0 tree_d_f 3 0 ['r']).map PrintEvent.line, tree_d_f) :=
  ⟨by decide, by decide,
    inode_print_tree_preorder c0 tree_d_f 3 0 ['r'] (by decide) 5 (by decide)⟩

/-- C12, as the code has it: when the root directory in slot 0 has exactly
one non-free entry, named `d` and referring to a directory, and that
directory has exactly one non-free entry, named `f` and referring to a file,
`inode_print_tree` on the root with the empty label writes exactly three
lines: the empty label of the root, then `/d`, then `/d/f`. -/
theorem inode_print_tree_root_d_f (c : Consts) (t : Table) (es0 es1 : List DirEntry)
    (j k : Int) (d : Data) (hname : 4 < c.MAX_FILE_NAME)
    (h0 : inode_at c t 0 = some ⟨type.T_DIRECTORY, Data.block es0⟩)
    (hl0 : c.MAX_DIR_ENTRIES ≤ es0.length)
    (hlive0 : live_entries c (es0.take c.MAX_DIR_ENTRIES) = [⟨['d'], j⟩])
    (h1 : inode_at c t j = some ⟨type.T_DIRECTORY, Data.block es1⟩)
    (hl1 : c.MAX_DIR_ENTRIES ≤ es1.length)
    (hlive1 : live_entries c (es1.take c.MAX_DIR_ENTRIES) = [⟨['f'], k⟩])
    (h2 : inode_at c t k = some ⟨type.T_FILE, d⟩)
    (fuel : Nat) (hfuel : 3 ≤ fuel) :
    inode_print_tree c t fuel 0 []
      = Run.done ([PrintEvent.line [], PrintEvent.line ['/', 'd'],
          PrintEvent.line ['/', 'd', '/', 'f']], t) := by
  have hfit : tree_fits c t 3 0 [] = true := by
    simp [tree_fits, h0, hl0, hlive0, h1, hl1, hlive1, h2]
    omega
  have hlist : listing c t 3 0 [] = [[], ['/', 'd'], ['/', 'd', '/', 'f']] := by
    simp [listing, entries_of, h0, hlive0, h1, hlive1, h2]
  unfold inode_print_tree
  rw [inode_print_tree_events_listing c t 3 fuel 0 [] hfit hfuel, hlist]
  rfl

/-- Witness of C12 as amended: the table `tree_d_f`. -/
theorem inode_print_tree_root_d_f_witness :
    inode_print_tree c0 tree_d_f 3 0 []
      = Run.done ([PrintEvent.line [], PrintEvent.line ['/', 'd'],
          PrintEvent.line ['/', 'd', '/', 'f']], tree_d_f) :=
  inode_print_tree_root_d_f c0 tree_d_f [⟨[], -1⟩, ⟨['d'], 1⟩] [⟨['f'], 2⟩, ⟨[], -1⟩]
    1 2 Data.null (by decide) (by decide) (by decide) (by decide) (by decide) (by decide)
    (by decide) (by decide) 3 (by decide)

/-- Counterexample to C12 as stated: on the table `tree_d_f`, printed from
the root with the empty label, the output is not the two lines `/d` and
`/d/f`: the root writes its own, empty, label first. -/
theorem inode_print_tree_root_line :
    inode_print_tree c0 tree_d_f 3 0 []
      ≠ Run.done ([PrintEvent.line ['/', 'd'], PrintEvent.line ['/', 'd', '/', 'f']],
          tree_d_f) ∧
    inode_print_tree_events c0 tree_d_f 3 0 []
      = Run.done [PrintEvent.line [], PrintEvent.line ['/', 'd'],
          PrintEvent.line ['/', 'd', '/', 'f']] := by
  decide

/-- C13: at the inumber `INODE_TABLE_SIZE`, which lies outside the table,
`inode_lock` does not return `FAIL`, in any mode: the guard compares with
`inumber > INODE_TABLE_SIZE`, lets the inumber through and reads
`inode_table[INODE_TABLE_SIZE]`, past the end of the array. -/
theorem inode_lock_at_table_size (c : Consts) (t : Table) (rc : Int) (flag : List Char) :
    inode_lock c t rc (c.INODE_TABLE_SIZE : Int) flag = none := by
  simp [inode_lock, invalid_inumber_at_table_size c t 0 (by omega)]

/-- C14: after `initLock`, `lock` makes no pthread call under `nosync`; one
`pthread_mutex_lock` of the mutex under `mutex`, whatever its argument; one
`pthread_rwlock_rdlock` of the read-write lock for `r` and one
`pthread_rwlock_wrlock` for `w` under `rwlock`; and `unlock` makes no call
under `nosync`, one unlock of the mutex under `mutex` and one unlock of the
read-write lock under `rwlock`. -/
theorem lock_unlock_events :
    (∀ rw, Sync.lock (Sync.initLock Sync.nosync).1 rw = ⟨[], false⟩) ∧
    (∀ rw, Sync.lock (Sync.initLock Sync.mutex).1 rw
      = ⟨[Sync.SyncEvent.mutex_lock], false⟩) ∧
    Sync.lock (Sync.initLock Sync.rwlock).1 'r' = ⟨[Sync.SyncEvent.rwlock_rdlock], false⟩ ∧
    Sync.lock (Sync.initLock Sync.rwlock).1 'w' = ⟨[Sync.SyncEvent.rwlock_wrlock], false⟩ ∧
    Sync.unlock (Sync.initLock Sync.nosync).1 = ⟨[], false⟩ ∧
    Sync.unlock (Sync.initLock Sync.mutex).1 = ⟨[Sync.SyncEvent.mutex_unlock], false⟩ ∧
    Sync.unlock (Sync.initLock Sync.rwlock).1 = ⟨[Sync.SyncEvent.rwlock_unlock], false⟩ ∧
    Sync.lock_of Sync.SyncEvent.mutex_unlock = Sync.lock_of Sync.SyncEvent.mutex_lock ∧
    Sync.lock_of Sync.SyncEvent.rwlock_unlock = Sync.lock_of Sync.SyncEvent.rwlock_rdlock ∧
    Sync.lock_of Sync.SyncEvent.rwlock_unlock = Sync.lock_of Sync.SyncEvent.rwlock_wrlock := by
  refine ⟨?_, ?_, by decide, by decide, by decide, by decide, by decide, rfl, rfl, rfl⟩
  · intro rw
    rfl
  · intro rw
    have h1 : Sync.mutex ≠ Sync.nosync := by decide
    have h2 : Sync.mutex ≠ Sync.rwlock := by decide
    simp [Sync.lock, Sync.initLock, h1, h2]

/-- C15: for a strategy name other than `nosync`, `mutex` and `rwlock`,
`initLock` constructs no lock, and after it `lock` (with any argument),
`unlock`, `commandLock`, `commandUnlock` and `destroyLock` make no pthread
call and return, exactly as they do after `initLock` of `nosync`. -/
theorem unknown_strategy_as_nosync (name : List Char) (h1 : name ≠ Sync.nosync)
    (h2 : name ≠ Sync.mutex) (h3 : name ≠ Sync.rwlock) :
    (Sync.initLock name).2 = [] ∧
    (∀ rw, Sync.lock (Sync.initLock name).1 rw = ⟨[], false⟩ ∧
      Sync.lock (Sync.initLock name).1 rw = Sync.lock (Sync.initLock Sync.nosync).1 rw) ∧
    (Sync.unlock (Sync.initLock name).1 = ⟨[], false⟩ ∧
      Sync.unlock (Sync.initLock name).1 = Sync.unlock (Sync.initLock Sync.nosync).1) ∧
    (Sync.commandLock (Sync.initLock name).1 = ⟨[], false⟩ ∧
      Sync.commandLock (Sync.initLock name).1
        = Sync.commandLock (Sync.initLock Sync.nosync).1) ∧
    (Sync.commandUnlock (Sync.initLock name).1 = ⟨[], false⟩ ∧
      Sync.commandUnlock (Sync.initLock name).1
        = Sync.commandUnlock (Sync.initLock Sync.nosync).1) ∧
    (Sync.destroyLock (Sync.initLock name).1 = ⟨[], false⟩ ∧
      Sync.destroyLock (Sync.initLock name).1
        = Sync.destroyLock (Sync.initLock Sync.nosync).1) := by
  have hg : (Sync.initLock name).1 = name := by
    unfold Sync.initLock
    split <;> rfl
  have hn : (Sync.initLock Sync.nosync).1 = Sync.nosync := rfl
  have d1 : Sync.nosync ≠ Sync.rwlock := by decide
  have d2 : Sync.nosync ≠ Sync.mutex := by decide
  rw [hg, hn]
  refine ⟨by simp [Sync.initLock, h1, h2, h3], ?_, ?_, ?_, ?_, ?_⟩
  · intro rw
    simp [Sync.lock, h1, h2, h3]
  · simp [Sync.unlock, h1, h2, h3]
  · simp [Sync.commandLock, h2, h3, d1, d2]
  · simp [Sync.commandUnlock, h2, h3, d1, d2]
  · simp [Sync.destroyLock, h2, h3, d1, d2]

/-- Witness of C15: the strategy name `spin`. -/
theorem unknown_strategy_as_nosync_witness :
    (Sync.initLock ['s', 'p', 'i', 'n']).2 = [] ∧
    (∀ rw, Sync.lock (Sync.initLock ['s', 'p', 'i', 'n']).1 rw = ⟨[], false⟩ ∧
      Sync.lock (Sync.initLock ['s', 'p', 'i', 'n']).1 rw
        = Sync.lock (Sync.initLock Sync.nosync).1 rw) ∧
    (Sync.unlock (Sync.initLock ['s', 'p', 'i', 'n']).1 = ⟨[], false⟩ ∧
      Sync.unlock (Sync.initLock ['s', 'p', 'i', 'n']).1
        = Sync.unlock (Sync.initLock Sync.nosync).1) ∧
    (Sync.commandLock (Sync.initLock ['s', 'p', 'i', 'n']).1 = ⟨[], false⟩ ∧
      Sync.commandLock (Sync.initLock ['s', 'p', 'i', 'n']).1
        = Sync.commandLock (Sync.initLock Sync.nosync).1) ∧
    (Sync.commandUnlock (Sync.initLock ['s', 'p', 'i', 'n']).1 = ⟨[], false⟩ ∧
      Sync.commandUnlock (Sync.initLock ['s', 'p', 'i', 'n']).1
        = Sync.commandUnlock (Sync.initLock Sync.nosync).1) ∧
    (Sync.destroyLock (Sync.initLock ['s', 'p', 'i', 'n']).1 = ⟨[], false⟩ ∧
      Sync.destroyLock (Sync.initLock ['s', 'p', 'i', 'n']).1
        = Sync.destroyLock (Sync.initLock Sync.nosync).1) :=
  unknown_strategy_as_nosync ['s', 'p', 'i', 'n'] (by decide) (by decide) (by decide)

/-- C17, as the code has it: the invariant on directory entries (within a
directory no two non-free entries share a name or a child inumber, and every
non-free entry refers to a taken slot) holds after `inode_table_init` and is
kept by every call of `inode_create` and of `dir_reset_entry`, by every
failing call of `dir_add_entry` and of `inode_delete`, by every successful
`dir_add_entry` whose name fits the name array of an entry (fewer than
`MAX_FILE_NAME` characters) and whose name and child no non-free entry of the
parent already holds, and by every successful `inode_delete` of an inumber
to which no non-free entry of a directory refers. -/
theorem table_inv_kept (c : Consts) (hFREE : c.FREE_INODE < 0) (hSF : c.SUCCESS ≠ c.FAIL) :
    table_inv c (inode_table_init c) ∧
    ∀ t, table_inv c t →
      (∀ names nType r t', inode_create c names t nType = some (r, t') → table_inv c t') ∧
      (∀ p s r t', dir_reset_entry c t p s = some (r, t') → table_inv c t') ∧
      (∀ p s name r t', dir_add_entry c t p s name = some (r, t') →
        (r = c.FAIL ∨
          (name.length < c.MAX_FILE_NAME ∧
            ∀ e ∈ live_entries c (entries_of c t p), e.name ≠ name ∧ e.inumber ≠ s)) →
        table_inv c t') ∧
      (∀ i r t', inode_delete c t i = some (r, t') →
        (r = c.FAIL ∨ ∀ n ∈ t, ∀ e ∈ live_entries c (node_entries n), e.inumber ≠ i) →
        table_inv c t') := by
  refine ⟨table_inv_init c, fun t hinv => ⟨?_, ?_, ?_, ?_⟩⟩
  · intro names nType r t' h
    exact table_inv_create c t hinv names nType r t' h
  · intro p s r t' h
    exact table_inv_reset c t hinv p s r t' h
  · intro p s name r t' h hnew
    exact table_inv_add c hFREE hSF t hinv p s name r t' h
      (hnew.imp id (fun hn => hn.2))
  · intro i r t' h hfree
    exact table_inv_delete c hSF t hinv i r t' h hfree

/-- Witness of C17 as amended: the file of slot 2 is added under the new
name `b` to the directory of `dir_a_files`, and the invariant holds of the
table after the call. -/
theorem table_inv_kept_witness :
    c0.FREE_INODE < 0 ∧ c0.SUCCESS ≠ c0.FAIL ∧ table_inv c0 dir_a_files ∧
    dir_add_entry c0 dir_a_files 0 2 ['b']
      = some (c0.SUCCESS, [⟨type.T_DIRECTORY, Data.block [⟨['a'], 1⟩, ⟨['b'], 2⟩]⟩,
          ⟨type.T_FILE, Data.null⟩, ⟨type.T_FILE, Data.null⟩]) ∧
    table_inv c0 [⟨type.T_DIRECTORY, Data.block [⟨['a'], 1⟩, ⟨['b'], 2⟩]⟩,
      ⟨type.T_FILE, Data.null⟩, ⟨type.T_FILE, Data.null⟩] :=
  ⟨by decide, by decide, by decide, by decide,
    ((table_inv_kept c0 (by decide) (by decide)).2 dir_a_files (by decide)).2.2.1
      0 2 ['b'] c0.SUCCESS _ (by decide) (Or.inr ⟨by decide, by decide⟩)⟩

/-- Counterexample to C17 as stated: the invariant holds of `dir_a_files`;
`dir_add_entry` of the child 1, which the directory already holds, under the
name `b` succeeds and leaves two non-free entries with the same child; and
`inode_delete` of the inumber 1 succeeds and leaves a non-free entry that
refers to a free slot. -/
theorem table_inv_broken :
    table_inv c0 dir_a_files ∧
    dir_add_entry c0 dir_a_files 0 1 ['b']
      = some (c0.SUCCESS, [⟨type.T_DIRECTORY, Data.block [⟨['a'], 1⟩, ⟨['b'], 1⟩]⟩,
          ⟨type.T_FILE, Data.null⟩, ⟨type.T_FILE, Data.null⟩]) ∧
    ¬ table_inv c0 [⟨type.T_DIRECTORY, Data.block [⟨['a'], 1⟩, ⟨['b'], 1⟩]⟩,
      ⟨type.T_FILE, Data.null⟩, ⟨type.T_FILE, Data.null⟩] ∧
    inode_delete c0 dir_a_files 1
      = some (c0.SUCCESS, [⟨type.T_DIRECTORY, Data.block [⟨['a'], 1⟩, ⟨[], -1⟩]⟩,
          ⟨type.T_NONE, Data.null⟩, ⟨type.T_FILE, Data.null⟩]) ∧
    ¬ table_inv c0 [⟨type.T_DIRECTORY, Data.block [⟨['a'], 1⟩, ⟨[], -1⟩]⟩,
      ⟨type.T_NONE, Data.null⟩, ⟨type.T_FILE, Data.null⟩] := by
  decide

/-- C18: under the strategy `rwlock`, `initLock` constructs the read-write
lock only, and the `commandLock` that follows acquires the mutex, a lock
that `initLock` did not construct. -/
theorem commandLock_rwlock_unconstructed :
    Sync.constructed (Sync.initLock Sync.rwlock).2 = [Sync.SyncLock.rwl] ∧
    Sync.acquired (Sync.commandLock (Sync.initLock Sync.rwlock).1).events
      = [Sync.SyncLock.mutex] ∧
    Sync.SyncLock.mutex ∉ Sync.constructed (Sync.initLock Sync.rwlock).2 := by
  decide

/-- C19, as the code has it: `inode_delete`, `inode_get`, `dir_add_entry`,
`dir_reset_entry` and `inode_print_tree` make no call on a lock; and
`inode_create` takes the write lock of the global `lock` on entry and
releases it once before it returns, whether it returns an inumber or
`FAIL`. -/
theorem lock_events_of_calls (c : Consts) (t : Table)
    (hlen : t.length = c.INODE_TABLE_SIZE) :
    (∀ i, lock_events c t (TableCall.delete i) = some []) ∧
    (∀ i wantType wantData, lock_events c t (TableCall.get i wantType wantData) = some []) ∧
    (∀ p s name, lock_events c t (TableCall.add_entry p s name) = some []) ∧
    (∀ p s, lock_events c t (TableCall.reset_entry p s) = some []) ∧
    (∀ fuel i name, lock_events c t (TableCall.print_tree fuel i name) = some []) ∧
    (∀ names nType, lock_events c t (TableCall.create names nType)
      = some [StateLockEvent.create_wrlock, StateLockEvent.create_unlock]) := by
  refine ⟨fun _ => rfl, fun _ _ _ => rfl, fun _ _ _ => rfl, fun _ _ => rfl,
    fun _ _ _ => rfl, ?_⟩
  intro names nType
  simp [lock_events, inode_create_locks,
    inode_create_loop_locks_eq t c.INODE_TABLE_SIZE 0 (by omega)]

/-- Witness of C19 as amended: the table left by `inode_table_init`. -/
theorem lock_events_of_calls_witness :
    (inode_table_init c0).length = c0.INODE_TABLE_SIZE ∧
    lock_events c0 (inode_table_init c0) (TableCall.delete 1) = some [] ∧
    lock_events c0 (inode_table_init c0) (TableCall.create (fun _ => []) type.T_FILE)
      = some [StateLockEvent.create_wrlock, StateLockEvent.create_unlock] :=
  ⟨by decide, (lock_events_of_calls c0 (inode_table_init c0) (by decide)).1 1,
    (lock_events_of_calls c0 (inode_table_init c0) (by decide)).2.2.2.2.2
      (fun _ => []) type.T_FILE⟩

/-- Counterexample to C19 as stated: on the table left by
`inode_table_init`, `inode_create` acquires and releases a lock. -/
theorem inode_create_takes_lock :
    lock_events c0 (inode_table_init c0) (TableCall.create (fun _ => []) type.T_FILE)
      = some [StateLockEvent.create_wrlock, StateLockEvent.create_unlock] ∧
    lock_events c0 (inode_table_init c0) (TableCall.create (fun _ => []) type.T_FILE)
      ≠ some [] := by
  decide

/-- C20: with `MAX_FILE_NAME` equal to 8, the directory label `/abc` and the
entry name `xyz` compose to `/abc/xyz`, of 8 characters; `inode_print_tree`
passes the cut label `/abc/xy` to the recursive call and writes no
warning. -/
theorem inode_print_tree_cut_without_warning :
    (['/', 'a', 'b', 'c'] ++ '/' :: ['x', 'y', 'z']).length = c0.MAX_FILE_NAME ∧
    inode_print_tree_events c0 tree_xyz 2 0 ['/', 'a', 'b', 'c']
      = Run.done [PrintEvent.line ['/', 'a', 'b', 'c'],
          PrintEvent.line ['/', 'a', 'b', 'c', '/', 'x', 'y']] := by
  decide

end TecnicoFS
